import Mathlib

/-!
# TestBlog: the static-site build script `build.js`

A shallow embedding of `src/build.js` and the properties of it that the
specification states.

Conventions of the embedding.

* JavaScript text is a list of characters (`Str`).  Lone surrogate code units
  have no counterpart here.
* `Value` is what gray-matter (js-yaml) can hand to the script as a piece of
  front matter.  It is either a `Tree`, a finite value without reference
  cycles (null, booleans, numbers, text, timestamps, that is JavaScript `Date`
  objects, sequences and mappings; a YAML alias to a finished node is the same
  tree once more), or a sequence or mapping from which a reference cycle can
  be reached (a YAML alias to an enclosing anchor, as in `date: &a [*a]`).  A
  cyclic structure is no finite tree; it is given by what the script can
  observe of it.  A property that is absent reads as `undefined`; that is
  `none` of `Option Value`.
* Numbers are the integers of magnitude at most 2^53 (every one of them is a
  double and prints with all its digits), `NaN` and the two infinities;
  fractional and larger numbers are outside the model, and so are binary
  scalars (Node buffers).  Mapping keys are assumed not to shadow the methods
  of `Object.prototype`.
* The libraries the script calls (gray-matter, marked, the host's `Date`
  parsing and printing, the clock) are the fields of `Env`.
* Console output is not modelled.
-/

namespace Build

/-- JavaScript text. -/
abbrev Str := List Char

/-- Values without reference cycles, in the shape js-yaml produces them.  The
members of a mapping stand in the order in which JavaScript enumerates the
properties of the object. -/
inductive Tree where
  | null
  | bool (b : Bool)
  | num (n : Int)
  | nan
  | infinity (negative : Bool)
  | str (s : Str)
  | date (time : Option Int)
  | arr (items : List Tree)
  | obj (fields : List (Str × Tree))

/-- Front-matter values in the shape js-yaml produces them: a finite tree, or
a sequence or a mapping from which a reference cycle can be reached (YAML
`&a [*a]` is a sequence whose only element is the sequence itself).

A cyclic sequence is given by its elements, each as the value the script gets
from it (an element that is the sequence itself is a `cyclicArr` again,
unfolded as deep as one cares to look; the script looks one level deep), and
by `joined`, the text the engine's `Array.prototype.join` gives for it (the
language leaves the join of a cyclic array to the engine; V8 prints an array
it is already joining as the empty text).  A cyclic mapping needs no further
data: the script never reads its members. -/
inductive Value where
  | tree (t : Tree)
  | cyclicArr (items : List Value) (joined : Str)
  | cyclicObj

/-- Kinds of exception the script can meet. -/
inductive JsError where
  | typeError
  | ioError
  | parseError
  deriving DecidableEq, Repr

/-- How a piece of the script ends: normally with a value, with a thrown
exception, or by `process.exit(code)`. -/
inductive Outcome (α : Type) where
  | ok (a : α)
  | throw (e : JsError)
  | exit (code : Nat)

/-- Sequencing of two steps of the script. -/
def Outcome.bind {α β : Type} : Outcome α → (α → Outcome β) → Outcome β
  | .ok a, f => f a
  | .throw e, _ => .throw e
  | .exit c, _ => .exit c

/-- Post-processing of a normal result. -/
def Outcome.map {α β : Type} (f : α → β) : Outcome α → Outcome β
  | .ok a => .ok (f a)
  | .throw e => .throw e
  | .exit c => .exit c

/-- The `Array.prototype.map` of a callback that may throw or exit: elements
are visited left to right and the first abnormal outcome ends the loop. -/
def mapOutcome {α β : Type} (f : α → Outcome β) : List α → Outcome (List β)
  | [] => .ok []
  | a :: as =>
    match f a with
    | .ok b =>
      match mapOutcome f as with
      | .ok bs => .ok (b :: bs)
      | .throw e => .throw e
      | .exit c => .exit c
    | .throw e => .throw e
    | .exit c => .exit c

/-- The libraries and the host environment of the script. -/
structure Env where
  /-- The `matter(fileContents)` of gray-matter: the front-matter mapping and
  the body; `none` when it throws. -/
  matter : Str → Option (List (Str × Value) × Str)
  /-- The `marked.parse(content)` of marked. -/
  markedParse : Str → Str
  /-- The `Date.parse` of the host; `none` is `NaN`. -/
  dateParse : Str → Option Int
  /-- The `Date.prototype.toString` of a valid date, in the host's time zone. -/
  dateToString : Int → Str
  /-- The `Date.prototype.toISOString` of a valid date. -/
  dateToISOString : Int → Str
  /-- The `new Date().getFullYear()` at the time of the run. -/
  currentYear : Int

/-! ## Primitive operations of the language -/

/-- JavaScript `ToBoolean` of a value without cycles. -/
def truthyTree : Tree → Bool
  | .null => false
  | .bool b => b
  | .num n => n != 0
  | .nan => false
  | .infinity _ => true
  | .str s => !s.isEmpty
  | .date _ => true
  | .arr _ => true
  | .obj _ => true

/-- JavaScript `ToBoolean`: every object is truthy. -/
def truthy : Value → Bool
  | .tree t => truthyTree t
  | .cyclicArr _ _ => true
  | .cyclicObj => true

/-- The decimal digit of a number below ten. -/
def digitChar (d : Nat) : Char := Char.ofNat (48 + d)

/-- Decimal digits of `n`, most significant first, in front of `acc`. -/
def natDigits : Nat → Nat → Str → Str
  | 0, _, acc => acc
  | fuel + 1, n, acc =>
    if n / 10 = 0 then digitChar (n % 10) :: acc
    else natDigits fuel (n / 10) (digitChar (n % 10) :: acc)

/-- Decimal text of a natural number. -/
def natToString (n : Nat) : Str := natDigits (n + 1) n []

/-- The `Number::toString` of an integer of magnitude at most 2^53: all its
digits, with a minus sign when negative.  (Above 2^53 JavaScript prints the
shortest digits that round-trip, and from 10^21 on the exponent form; such
numbers are outside the model.) -/
def numberToString : Int → Str
  | .ofNat n => natToString n
  | .negSucc n => '-' :: natToString (n + 1)

/-- The `Array.prototype.join` of an array of texts. -/
def join (sep : Str) (parts : List Str) : Str := sep.intercalate parts

mutual
/-- JavaScript `ToString` of a value without cycles, as applied by template
literals and by `Array.prototype.join`. -/
def toStrTree (env : Env) : Tree → Str
  | .null => "null".toList
  | .bool b => if b then "true".toList else "false".toList
  | .num n => numberToString n
  | .nan => "NaN".toList
  | .infinity negative => if negative then "-Infinity".toList else "Infinity".toList
  | .str s => s
  | .date none => "Invalid Date".toList
  | .date (some t) => env.dateToString t
  | .arr items => join ",".toList (elementStrs env items)
  | .obj _ => "[object Object]".toList
/-- The texts `Array.prototype.join` joins: null elements give the empty text. -/
def elementStrs (env : Env) : List Tree → List Str
  | [] => []
  | .null :: vs => [] :: elementStrs env vs
  | v :: vs => toStrTree env v :: elementStrs env vs
end

/-- JavaScript `ToString`: a cyclic sequence prints as the engine joins it, a
cyclic mapping as every plain object. -/
def toStr (env : Env) : Value → Str
  | .tree t => toStrTree env t
  | .cyclicArr _ joined => joined
  | .cyclicObj => "[object Object]".toList

/-- The method call `value.toString()`: it throws a TypeError on null, which
has no properties. -/
def toStringMethod (env : Env) : Value → Outcome Str
  | .tree .null => .throw .typeError
  | v => .ok (toStr env v)

/-- The test `Array.isArray(value)` together with the elements of the array:
`none` when the value is not an array. -/
def elements : Value → Option (List Value)
  | .tree (.arr items) => some (items.map .tree)
  | .cyclicArr items _ => some items
  | _ => none

/-- The `TimeClip` of the language: time values beyond 8.64e15 ms are invalid. -/
def timeClip (n : Int) : Option Int :=
  if n.natAbs ≤ 8640000000000000 then some n else none

/-- The time value of `new Date(value)`; `none` is `NaN` (an invalid date). -/
def timeValue (env : Env) : Value → Option Int
  | .tree .null => some 0
  | .tree (.bool b) => some (if b then 1 else 0)
  | .tree (.num n) => timeClip n
  | .tree .nan => none
  | .tree (.infinity _) => none
  | .tree (.str s) => env.dateParse s
  | .tree (.date t) => t
  | v => env.dateParse (toStr env v)

/-- The `text.replace(/"/g, '\\"')` of lines 83 and 84: every double quote is
replaced by a backslash followed by a double quote. -/
def replaceQuotes : Str → Str
  | [] => []
  | c :: cs =>
    if c = '"' then '\\' :: '"' :: replaceQuotes cs
    else c :: replaceQuotes cs

/-! ## `JSON.stringify(value, null, 2)` -/

/-- Lower-case hexadecimal digit. -/
def hexDigit (d : Nat) : Char :=
  if d < 10 then Char.ofNat (48 + d) else Char.ofNat (87 + d)

/-- The text `QuoteJSONString` emits for one character. -/
def quoteChar (c : Char) : Str :=
  if c = '"' then ['\\', '"']
  else if c = '\\' then ['\\', '\\']
  else if c = Char.ofNat 8 then ['\\', 'b']
  else if c = Char.ofNat 12 then ['\\', 'f']
  else if c = '\n' then ['\\', 'n']
  else if c = '\r' then ['\\', 'r']
  else if c = '\t' then ['\\', 't']
  else if c.toNat < 32 then
    ['\\', 'u', '0', '0', hexDigit (c.toNat / 16), hexDigit (c.toNat % 16)]
  else [c]

/-- The escaped characters of a text, without the enclosing quotes. -/
def quoteBody : Str → Str
  | [] => []
  | c :: cs => quoteChar c ++ quoteBody cs

/-- The `QuoteJSONString` of the language. -/
def quoteJSONString (s : Str) : Str := '"' :: (quoteBody s ++ ['"'])

/-- The gap of `JSON.stringify(value, null, 2)`: two spaces. -/
def gap : Str := [' ', ' ']

mutual
/-- The `SerializeJSONProperty` of the language at indentation `indent`, with
the gap of two spaces, for a value without cycles.  A `Date` is serialised
through its `toJSON`. -/
def serializeJSON (env : Env) (indent : Str) : Tree → Str
  | .null => "null".toList
  | .bool b => if b then "true".toList else "false".toList
  | .num n => numberToString n
  | .nan => "null".toList
  | .infinity _ => "null".toList
  | .str s => quoteJSONString s
  | .date none => "null".toList
  | .date (some t) => quoteJSONString (env.dateToISOString t)
  | .arr items =>
    match serializeItems env (indent ++ gap) items with
    | [] => "[]".toList
    | parts =>
      '[' :: '\n' :: ((indent ++ gap) ++ (join (',' :: '\n' :: (indent ++ gap)) parts
        ++ '\n' :: (indent ++ [']'])))
  | .obj fields =>
    match serializeMembers env (indent ++ gap) fields with
    | [] => "\x7b\x7d".toList
    | parts =>
      '\x7b' :: '\n' :: ((indent ++ gap) ++ (join (',' :: '\n' :: (indent ++ gap)) parts
        ++ '\n' :: (indent ++ ['\x7d'])))
/-- The serialised elements of an array. -/
def serializeItems (env : Env) (indent : Str) : List Tree → List Str
  | [] => []
  | v :: vs => serializeJSON env indent v :: serializeItems env indent vs
/-- The serialised members of an object: quoted key, colon, space, value. -/
def serializeMembers (env : Env) (indent : Str) : List (Str × Tree) → List Str
  | [] => []
  | (k, v) :: fs =>
    (quoteJSONString k ++ (':' :: ' ' :: serializeJSON env indent v))
      :: serializeMembers env indent fs
end

/-- The call `JSON.stringify(value, null, 2)` of line 88: the text of a value
without cycles; `none` when the structure is circular and the call throws a
TypeError. -/
def stringify (env : Env) : Value → Option Str
  | .tree t => some (serializeJSON env [] t)
  | .cyclicArr _ _ => none
  | .cyclicObj => none

/-! ## The script -/

/-- A post object as `getAllPosts` builds it (lines 60 to 66). -/
structure Post where
  title : Value
  author : Value
  date : Value
  tags : List Str
  content : Str

/-- The file system as the script sees it. -/
structure FileSystem where
  /-- The entries of `_posts` in the order `readdirSync` lists them, each with
  the text `readFileSync` returns for it (`none`: reading it throws); `none`
  when the directory cannot be listed. -/
  postsDirectory : Option (List (Str × Option Str))
  /-- The contents of `index.html`, if the file exists. -/
  outputFile : Option Str
  /-- Whether `writeFileSync` on `index.html` succeeds. -/
  outputWritable : Bool

/-- Property read `data.key`: `none` is `undefined`. -/
def get (data : List (Str × Value)) (key : Str) : Option Value := data.lookup key

/-- The test `!data.key`: an absent property is `undefined`, which is falsy. -/
def falsy : Option Value → Bool
  | none => true
  | some v => !truthy v

/-- The `filename.endsWith('.md')` of line 36. -/
def endsWithMd (filename : Str) : Bool := ".md".toList.isSuffixOf filename

/-- Lines 53 to 54: the first five tags, each through `toString()`; for a
value that is not an array, the empty array. -/
def validTags (env : Env) (tags : Value) : Outcome (List Str) :=
  match elements tags with
  | some items => mapOutcome (toStringMethod env) (items.take 5)
  | none => .ok []

/-- The callback of `.map` in `getAllPosts` (lines 37 to 67) for one file name
and its contents. -/
def processFile (env : Env) (file : Str × Option Str) : Outcome Post :=
  match file.2 with
  | none => .throw .ioError
  | some fileContents =>
    match env.matter fileContents with
    | none => .throw .parseError
    | some (data, content) =>
      if falsy (get data "title".toList) || falsy (get data "author".toList)
          || falsy (get data "date".toList) || falsy (get data "tags".toList) then
        .exit 1
      else
        match get data "title".toList, get data "author".toList,
            get data "date".toList, get data "tags".toList with
        | some title, some author, some date, some tags =>
          (validTags env tags).bind fun tagTexts =>
            .ok { title := title, author := author, date := date, tags := tagTexts,
                  content := env.markedParse content }
        | _, _, _, _ => .exit 1

/-- The comparator of line 69, `new Date(b.date) - new Date(a.date)`; `none`
is `NaN`.  Only its sign matters to the sort. -/
def compareFn (env : Env) (a b : Post) : Option Int :=
  match timeValue env b.date, timeValue env a.date with
  | some tb, some ta => some (tb - ta)
  | _, _ => none

/-- The `SortCompare` of the language says `a` may stay before `b`: the
comparator's result is not positive, a `NaN` result counting as zero. -/
def sortLE (env : Env) (a b : Post) : Bool :=
  match compareFn env a b with
  | some d => decide (d ≤ 0)
  | none => true

/-- Insertion of one post into a sorted list, before the first post it may
stay before. -/
def insertPost (env : Env) (a : Post) : List Post → List Post
  | [] => [a]
  | b :: rest => if sortLE env a b then a :: b :: rest else b :: insertPost env a rest

/-- The `Array.prototype.sort` of line 69, as a stable insertion sort.  When
every date is valid the comparator is consistent and the language fixes the
result (the sort is stable), so any conforming engine returns this list.  When
a comparison gives `NaN` (an invalid date) the order is left to the engine and
this definition does not stand for it. -/
def sortPosts (env : Env) : List Post → List Post
  | [] => []
  | a :: rest => insertPost env a (sortPosts env rest)

/-- The function `getAllPosts` (lines 31 to 72). -/
def getAllPosts (env : Env) (fs : FileSystem) : Outcome (List Post) :=
  match fs.postsDirectory with
  | none => .throw .ioError
  | some filenames =>
    (mapOutcome (processFile env) (filenames.filter fun f => endsWithMd f.1)).map
      (sortPosts env)

/-- Opening line of the structured-data block (line 90). -/
def scriptOpen : Str := "<script type=\"application/ld+json\">\n".toList

/-- Closing line of the structured-data block (line 90). -/
def scriptClose : Str := "\n</script>".toList

/-- The object literal of lines 80 to 87; `none` when `.replace` is not a
function of the title or of the author (they are not text).  The object holds
the post's date as it is, so a cycle can be reached from it exactly when one
can be reached from the date. -/
def jsonldObject (post : Post) : Option Value :=
  match post.title, post.author with
  | .tree (.str title), .tree (.str author) =>
    match post.date with
    | .tree date =>
      some (.tree (.obj [
        ("@context".toList, .str "https://schema.org".toList),
        ("@type".toList, .str "BlogPosting".toList),
        ("headline".toList, .str (replaceQuotes title)),
        ("author".toList, .str (replaceQuotes author)),
        ("datePublished".toList, date),
        ("keywords".toList, .str (join ",".toList post.tags))]))
    | _ => some .cyclicObj
  | _, _ => none

/-- The function `generateJSONLD` (lines 79 to 91): a TypeError when the title
or the author has no `.replace`, and when `JSON.stringify` meets a circular
structure. -/
def generateJSONLD (env : Env) (post : Post) : Outcome Str :=
  match jsonldObject post with
  | none => .throw .typeError
  | some jsonld =>
    match stringify env jsonld with
    | some jsonldString => .ok (scriptOpen ++ (jsonldString ++ scriptClose))
    | none => .throw .typeError

/-- Template text of lines 101 to 104, up to the title. -/
def seg0 : Str := "\n        <article>\n            <header>\n                <h2>".toList
/-- Template text between the title and the author. -/
def seg1 : Str := "</h2>\n                <p>By ".toList
/-- Template text between the author and the date. -/
def seg2 : Str := " on ".toList
/-- Template text between the date and the tags. -/
def seg3 : Str := "</p>\n                <p>Tags: ".toList
/-- Template text between the tags and the structured-data block. -/
def seg4 : Str := "</p>\n            </header>\n            ".toList
/-- Template text between the structured-data block and the body. -/
def seg5 : Str := "\n            <section>\n                ".toList
/-- Template text after the body (lines 111 to 114). -/
def seg6 : Str := "\n            </section>\n        </article>\n        <hr>\n        ".toList

/-- The callback of `.map` in `generatePostsHTML` (lines 100 to 115): the block
of one post. -/
def renderPost (env : Env) (post : Post) : Outcome Str :=
  (generateJSONLD env post).map fun jsonld =>
    seg0 ++ (toStr env post.title ++ (seg1 ++ (toStr env post.author ++ (seg2 ++
      (toStr env post.date ++ (seg3 ++ (join ", ".toList post.tags ++ (seg4 ++
        (jsonld ++ (seg5 ++ (post.content ++ seg6)))))))))))

/-- The function `generatePostsHTML` (lines 98 to 118). -/
def generatePostsHTML (env : Env) (posts : List Post) : Outcome Str :=
  (mapOutcome (renderPost env) posts).map (join "\n".toList)

/-- Page skeleton before the posts (lines 127 to 142). -/
def indexHead : Str := "<!DOCTYPE html>\n    <html lang=\"en\">\n    <head>\n        <meta charset=\"UTF-8\">\n        <meta name=\"viewport\" content=\"width=device-width, initial-scale=1.0\">\n        <title>My Static Blog</title>\n        <link rel=\"stylesheet\" href=\"styles.css\">\n    </head>\n    <body>\n        <header>\n            <h1>My Static Blog</h1>\n        </header>\n        <main>\n            <!-- Blog Posts -->\n            <!-- Each blog post is inserted here in reverse chronological order -->\n            ".toList
/-- Page skeleton between the posts and the year (lines 142 to 145). -/
def indexMid : Str := "\n        </main>\n        <footer>\n            <p>&copy; ".toList
/-- Page skeleton after the year (lines 145 to 148). -/
def indexTail : Str := " My Static Blog</p>\n        </footer>\n    </body>\n    </html>".toList

/-- Page skeleton after the posts, for a given calendar year. -/
def indexFoot (year : Int) : Str := indexMid ++ (numberToString year ++ indexTail)

/-- The function `generateIndexHTML` (lines 125 to 151). -/
def generateIndexHTML (env : Env) (postsHTML : Str) : Str :=
  indexHead ++ (postsHTML ++ indexFoot env.currentYear)

/-- The end of a run of the script: the file system it leaves, the exit code
of the process and the texts passed to `writeFileSync` on `index.html`. -/
structure Run where
  fs : FileSystem
  exitCode : Nat
  writes : List Str

/-- The function `buildSite` (lines 156 to 167), run as the whole script. -/
def buildSite (env : Env) (fs : FileSystem) : Run :=
  match getAllPosts env fs with
  | .exit code => { fs := fs, exitCode := code, writes := [] }
  | .throw _ => { fs := fs, exitCode := 1, writes := [] }
  | .ok posts =>
    match generatePostsHTML env posts with
    | .exit code => { fs := fs, exitCode := code, writes := [] }
    | .throw _ => { fs := fs, exitCode := 1, writes := [] }
    | .ok postsHTML =>
      let fullHTML := generateIndexHTML env postsHTML
      if fs.outputWritable then
        { fs := { fs with outputFile := some fullHTML }, exitCode := 0, writes := [fullHTML] }
      else
        { fs := fs, exitCode := 1, writes := [fullHTML] }

/-! ## Notions the claims are stated with -/

/-- The first post's date is strictly later than the second's: both dates
give valid time values and the first is the greater. -/
def later (env : Env) (a b : Post) : Prop :=
  ∃ ta tb, timeValue env a.date = some ta ∧ timeValue env b.date = some tb ∧ tb < ta

/-- Number of positions of a text at which the pattern occurs. -/
def countOccurrences (pat : Str) : Str → Nat
  | [] => if pat.isEmpty then 1 else 0
  | c :: cs => (if pat.isPrefixOf (c :: cs) then 1 else 0) + countOccurrences pat cs

/-- The opening tag of an article block. -/
def articleTag : Str := "<article>".toList

/-- The structured-data block of a post, the empty text when
`generateJSONLD` throws. -/
def jsonldText (env : Env) (post : Post) : Str :=
  match generateJSONLD env post with
  | .ok block => block
  | _ => []

/-- Occurrences of the article tag inside the texts the template of
`generatePostsHTML` interpolates for a post: title, author, date, joined
tags, structured-data block and rendered body. -/
def interpolatedTags (env : Env) (post : Post) : Nat :=
  countOccurrences articleTag (toStr env post.title)
    + countOccurrences articleTag (toStr env post.author)
    + countOccurrences articleTag (toStr env post.date)
    + countOccurrences articleTag (join ", ".toList post.tags)
    + countOccurrences articleTag (jsonldText env post)
    + countOccurrences articleTag post.content

/-! ## Reading JSON text

The reader below is the yardstick for "syntactically valid JSON" (RFC 8259):
it accepts exactly one JSON value surrounded by optional white space and
returns the value it denotes.  Numbers are kept as their lexeme. -/

/-- JSON values as a reader of the embedded data sees them. -/
inductive Json where
  | null
  | bool (b : Bool)
  | num (lexeme : Str)
  | str (s : Str)
  | arr (items : List Json)
  | obj (members : List (Str × Json))

/-- JSON white space. -/
def isWs (c : Char) : Bool := c = ' ' || c = '\n' || c = '\r' || c = '\t'

/-- The text after leading white space. -/
def skipWs : Str → Str
  | [] => []
  | c :: cs => if isWs c then skipWs cs else c :: cs

/-- Value of a hexadecimal digit. -/
def hexValue (c : Char) : Option Nat :=
  if 48 ≤ c.toNat ∧ c.toNat ≤ 57 then some (c.toNat - 48)
  else if 97 ≤ c.toNat ∧ c.toNat ≤ 102 then some (c.toNat - 87)
  else if 65 ≤ c.toNat ∧ c.toNat ≤ 70 then some (c.toNat - 55)
  else none

/-- The character a one-letter escape stands for. -/
def unescape (e : Char) : Option Char :=
  if e = '"' then some '"'
  else if e = '\\' then some '\\'
  else if e = '/' then some '/'
  else if e = 'b' then some (Char.ofNat 8)
  else if e = 'f' then some (Char.ofNat 12)
  else if e = 'n' then some '\n'
  else if e = 'r' then some '\r'
  else if e = 't' then some '\t'
  else none

/-- Reads a JSON string after its opening quote: the text it denotes and the
input after the closing quote. -/
def readString : Str → Option (Str × Str)
  | [] => none
  | c :: rest =>
    if c = '"' then some ([], rest)
    else if c = '\\' then
      match rest with
      | [] => none
      | e :: rest1 =>
        if e = 'u' then
          match rest1 with
          | h1 :: h2 :: h3 :: h4 :: rest2 =>
            match hexValue h1, hexValue h2, hexValue h3, hexValue h4, readString rest2 with
            | some a, some b, some c, some d, some (s, r) =>
              some (Char.ofNat (((a * 16 + b) * 16 + c) * 16 + d) :: s, r)
            | _, _, _, _, _ => none
          | _ => none
        else
          match unescape e, readString rest1 with
          | some ch, some (s, r) => some (ch :: s, r)
          | _, _ => none
    else if c.toNat < 32 then none
    else
      match readString rest with
      | some (s, r) => some (c :: s, r)
      | none => none

/-- Decimal digit test. -/
def isDigit (c : Char) : Bool := decide (48 ≤ c.toNat) && decide (c.toNat ≤ 57)

/-- The longest run of digits at the front of the input, and what follows. -/
def takeDigits : Str → Str × Str
  | [] => ([], [])
  | c :: cs =>
    if isDigit c then ((c :: (takeDigits cs).1), (takeDigits cs).2)
    else ([], c :: cs)

/-- Integer part of a JSON number: a single zero, or a non-zero digit followed
by digits. -/
def readInt : Str → Option (Str × Str)
  | [] => none
  | c :: cs =>
    if c = '0' then some (['0'], cs)
    else if isDigit c then some (c :: (takeDigits cs).1, (takeDigits cs).2)
    else none

/-- Optional fraction part of a JSON number. -/
def readFrac : Str → Option (Str × Str)
  | [] => some ([], [])
  | c :: cs =>
    if c = '.' then
      match takeDigits cs with
      | ([], _) => none
      | (d, r) => some ('.' :: d, r)
    else some ([], c :: cs)

/-- Optional sign of an exponent. -/
def readSign : Str → Str × Str
  | [] => ([], [])
  | c :: cs => if c = '+' ∨ c = '-' then ([c], cs) else ([], c :: cs)

/-- Optional exponent part of a JSON number. -/
def readExp : Str → Option (Str × Str)
  | [] => some ([], [])
  | c :: cs =>
    if c = 'e' ∨ c = 'E' then
      match takeDigits (readSign cs).2 with
      | ([], _) => none
      | (d, r) => some (c :: ((readSign cs).1 ++ d), r)
    else some ([], c :: cs)

/-- Reads a JSON number: its lexeme and the input after it. -/
def readNumber (s : Str) : Option (Str × Str) :=
  let signed : Str × Str :=
    match s with
    | [] => ([], [])
    | c :: cs => if c = '-' then ([c], cs) else ([], c :: cs)
  match readInt signed.2 with
  | none => none
  | some (i, s2) =>
    match readFrac s2 with
    | none => none
    | some (f, s3) =>
      match readExp s3 with
      | none => none
      | some (e, s4) => some (signed.1 ++ (i ++ (f ++ e)), s4)

mutual
/-- Reads one JSON value, with `fuel` bounding the number of nested calls:
the value and the input after it. -/
def parseValue : Nat → Str → Option (Json × Str)
  | 0, _ => none
  | fuel + 1, s =>
    match skipWs s with
    | [] => none
    | c :: rest =>
      if c = '"' then
        match readString rest with
        | some (t, r) => some (.str t, r)
        | none => none
      else if c = '[' then
        match skipWs rest with
        | [] => none
        | d :: rest1 =>
          if d = ']' then some (.arr [], rest1)
          else
            match parseElements fuel (d :: rest1) with
            | some (items, r) => some (.arr items, r)
            | none => none
      else if c = '\x7b' then
        match skipWs rest with
        | [] => none
        | d :: rest1 =>
          if d = '\x7d' then some (.obj [], rest1)
          else
            match parseMembers fuel (d :: rest1) with
            | some (members, r) => some (.obj members, r)
            | none => none
      else if c = 'n' then
        match rest with
        | 'u' :: 'l' :: 'l' :: r => some (.null, r)
        | _ => none
      else if c = 't' then
        match rest with
        | 'r' :: 'u' :: 'e' :: r => some (.bool true, r)
        | _ => none
      else if c = 'f' then
        match rest with
        | 'a' :: 'l' :: 's' :: 'e' :: r => some (.bool false, r)
        | _ => none
      else
        match readNumber (c :: rest) with
        | some (lexeme, r) => some (.num lexeme, r)
        | none => none
/-- Reads the elements of a non-empty array up to the closing bracket. -/
def parseElements : Nat → Str → Option (List Json × Str)
  | 0, _ => none
  | fuel + 1, s =>
    match parseValue fuel s with
    | none => none
    | some (v, rest) =>
      match skipWs rest with
      | [] => none
      | c :: rest1 =>
        if c = ']' then some ([v], rest1)
        else if c = ',' then
          match parseElements fuel rest1 with
          | some (vs, r) => some (v :: vs, r)
          | none => none
        else none
/-- Reads the members of a non-empty object up to the closing brace. -/
def parseMembers : Nat → Str → Option (List (Str × Json) × Str)
  | 0, _ => none
  | fuel + 1, s =>
    match skipWs s with
    | [] => none
    | q :: rest =>
      if q = '"' then
        match readString rest with
        | none => none
        | some (k, rest1) =>
          match skipWs rest1 with
          | [] => none
          | colon :: rest2 =>
            if colon = ':' then
              match parseValue fuel rest2 with
              | none => none
              | some (v, rest3) =>
                match skipWs rest3 with
                | [] => none
                | c :: rest4 =>
                  if c = '\x7d' then some ([(k, v)], rest4)
                  else if c = ',' then
                    match parseMembers fuel rest4 with
                    | some (ms, r) => some ((k, v) :: ms, r)
                    | none => none
                  else none
            else none
      else none
end

/-- Reads a whole text as one JSON value; `none` when the text is not JSON. -/
def parseJSON (s : Str) : Option Json :=
  match parseValue (s.length + 1) s with
  | some (v, rest) => if (skipWs rest).isEmpty then some v else none
  | none => none

mutual
/-- The JSON value a reader gets back from the text of a value without cycles:
numbers as their decimal text, `NaN`, the infinities and invalid dates as
null, valid dates as the text of `toISOString`. -/
def readBack (env : Env) : Tree → Json
  | .null => .null
  | .bool b => .bool b
  | .num n => .num (numberToString n)
  | .nan => .null
  | .infinity _ => .null
  | .str s => .str s
  | .date none => .null
  | .date (some t) => .str (env.dateToISOString t)
  | .arr items => .arr (readBackItems env items)
  | .obj fields => .obj (readBackMembers env fields)
/-- The elements read back from an array. -/
def readBackItems (env : Env) : List Tree → List Json
  | [] => []
  | v :: vs => readBack env v :: readBackItems env vs
/-- The members read back from an object. -/
def readBackMembers (env : Env) : List (Str × Tree) → List (Str × Json)
  | [] => []
  | (k, v) :: fs => (k, readBack env v) :: readBackMembers env fs
end

mutual
/-- Number of nodes of a value, its elements and members counted once more
for their place in the list: the nesting budget reading it back needs. -/
def nodes : Tree → Nat
  | .arr items => 1 + nodesItems items
  | .obj fields => 1 + nodesMembers fields
  | _ => 1
/-- Nodes of the elements of an array. -/
def nodesItems : List Tree → Nat
  | [] => 0
  | v :: vs => 1 + nodes v + nodesItems vs
/-- Nodes of the members of an object. -/
def nodesMembers : List (Str × Tree) → Nat
  | [] => 0
  | (_, v) :: fs => 1 + nodes v + nodesMembers fs
end

/-- What follows the text of a value inside a serialisation: nothing, a comma
or a line break. -/
def endsValue (rest : Str) : Prop := ∀ c ∈ rest.head?, c = ',' ∨ c = '\n'

/-- The opening script tag of a structured-data block. -/
def openTag : Str := "<script type=\"application/ld+json\">".toList

/-- The closing script tag of a structured-data block. -/
def closeTag : Str := "</script>".toList

/-- The text a structured-data block carries between its opening and its
closing script tag; `none` when the block does not have that frame. -/
def scriptBody (block : Str) : Option Str :=
  if openTag.isPrefixOf block ∧ closeTag.isSuffixOf (block.drop openTag.length) then
    some ((block.drop openTag.length).take (block.length - openTag.length - closeTag.length))
  else none

/-- Member of a JSON object by key. -/
def Json.member (key : Str) : Json → Option Json
  | .obj members => members.lookup key
  | _ => none

/-- Keys of a JSON object, in the order of the text. -/
def Json.keys : Json → List Str
  | .obj members => members.map Prod.fst
  | _ => []

/-! ## Sample inputs -/

/-- A sample host: front matter is looked up in a table keyed by the file's
text, marked wraps the body in a paragraph, dates print as their time value
and the year is 2024.  Unquoted YAML dates arrive as timestamps, so the
documents below carry `Date` values: 2024-01-01 is 1704067200000 ms and
2024-06-01 is 1717200000000 ms. -/
def sampleEnv (table : List (Str × (List (Str × Value) × Str))) : Env where
  matter := fun text => table.lookup text
  markedParse := fun body => "<p>".toList ++ (body ++ "</p>\n".toList)
  dateParse := fun _ => none
  dateToString := numberToString
  dateToISOString := numberToString
  currentYear := 2024

/-- Front matter with the four required fields, none of them cyclic. -/
def frontMatter (title author date tags : Tree) : List (Str × Value) :=
  [("title".toList, .tree title), ("author".toList, .tree author), ("date".toList, .tree date),
    ("tags".toList, .tree tags)]

/-- The first document of the example scenario of the specification. -/
def doc1 : List (Str × Value) :=
  frontMatter (.str "Hello".toList) (.str "Ann".toList) (.date (some 1704067200000))
    (.arr [.str "x".toList, .str "y".toList])

/-- The second document of the example scenario of the specification. -/
def doc2 : List (Str × Value) :=
  frontMatter (.str "World".toList) (.str "Bo".toList) (.date (some 1717200000000)) (.arr [])

/-- The post `getAllPosts` builds from the first document under the sample host. -/
def post1 : Post where
  title := .tree (.str "Hello".toList)
  author := .tree (.str "Ann".toList)
  date := .tree (.date (some 1704067200000))
  tags := ["x".toList, "y".toList]
  content := "<p>body</p>\n".toList

/-- The post `getAllPosts` builds from the second document under the sample host. -/
def post2 : Post where
  title := .tree (.str "World".toList)
  author := .tree (.str "Bo".toList)
  date := .tree (.date (some 1717200000000))
  tags := []
  content := "<p>body</p>\n".toList

/-- A document without a date. -/
def docNoDate : List (Str × Value) :=
  [("title".toList, .tree (.str "World".toList)), ("author".toList, .tree (.str "Bo".toList)),
    ("tags".toList, .tree (.arr []))]

/-- A table that gives the file with text `A` the first front matter and the
file with text `B` the second, both with the body `body`. -/
def twoDocs (a b : List (Str × Value)) : List (Str × (List (Str × Value) × Str)) :=
  [("A".toList, (a, "body".toList)), ("B".toList, (b, "body".toList))]

/-- A table that gives the file with text `A` the given front matter. -/
def oneDoc (a : List (Str × Value)) : List (Str × (List (Str × Value) × Str)) :=
  [("A".toList, (a, "body".toList))]

/-- The file `A.md` with text `A`. -/
def fileA : Str × Option Str := ("A.md".toList, some "A".toList)

/-- The file `B.md` with text `B`. -/
def fileB : Str × Option Str := ("B.md".toList, some "B".toList)

/-- A document whose tags field is the boolean false. -/
def docFalseTags : List (Str × Value) :=
  frontMatter (.str "Hello".toList) (.str "Ann".toList) (.date (some 1704067200000))
    (.bool false)

/-- A document whose tags field is the text `news`. -/
def docTextTags : List (Str × Value) :=
  frontMatter (.str "Hello".toList) (.str "Ann".toList) (.date (some 1704067200000))
    (.str "news".toList)

/-- A document whose title is the number 42. -/
def docNumberTitle : List (Str × Value) :=
  frontMatter (.num 42) (.str "Ann".toList) (.date (some 1704067200000)) (.arr [])

/-- A document whose only tag is null (YAML `tags: [~]`). -/
def docNullTag : List (Str × Value) :=
  frontMatter (.str "Hello".toList) (.str "Ann".toList) (.date (some 1704067200000))
    (.arr [.null])

/-- A document with seven tags, the third of them a number. -/
def docSevenTags : List (Str × Value) :=
  frontMatter (.str "Hello".toList) (.str "Ann".toList) (.date (some 1704067200000))
    (.arr [.str "a".toList, .str "b".toList, .num 3, .str "d".toList, .str "e".toList,
      .str "f".toList, .str "g".toList])

/-- A document whose title is the text of an article tag. -/
def docTagTitle : List (Str × Value) :=
  frontMatter (.str "<article>".toList) (.str "Ann".toList) (.date (some 1704067200000))
    (.arr [])

/-- The post `getAllPosts` builds from `docTagTitle` under the sample host. -/
def postTagTitle : Post where
  title := .tree (.str "<article>".toList)
  author := .tree (.str "Ann".toList)
  date := .tree (.date (some 1704067200000))
  tags := []
  content := "<p>body</p>\n".toList

/-- A post whose title holds double quotes: `Say "hi"`. -/
def postQuoted : Post where
  title := .tree (.str "Say \"hi\"".toList)
  author := .tree (.str "Ann".toList)
  date := .tree (.date (some 1704067200000))
  tags := []
  content := "<p>body</p>\n".toList

/-- The keys of a structured-data block, in the order of lines 81 to 86. -/
def jsonldKeys : List Str :=
  ["@context".toList, "@type".toList, "headline".toList, "author".toList,
    "datePublished".toList, "keywords".toList]

/-- The sequence of YAML `&a [*a]`: its only element is the sequence itself.
V8 joins it to the empty text. -/
def selfArray : Value := .cyclicArr [.cyclicArr [] []] []

/-- A document whose date is the self-containing sequence of `date: &a [*a]`. -/
def docCyclicDate : List (Str × Value) :=
  [("title".toList, .tree (.str "Hello".toList)), ("author".toList, .tree (.str "Ann".toList)),
    ("date".toList, selfArray), ("tags".toList, .tree (.arr []))]

/-- The post `getAllPosts` builds from `docCyclicDate` under the sample host. -/
def postCyclicDate : Post where
  title := .tree (.str "Hello".toList)
  author := .tree (.str "Ann".toList)
  date := selfArray
  tags := []
  content := "<p>body</p>\n".toList

/-- A posts directory with one Markdown file per given text and no
`index.html` yet. -/
def dirOf (texts : List Str) : FileSystem where
  postsDirectory := some (texts.map fun t => (t ++ ".md".toList, some t))
  outputFile := none
  outputWritable := true

set_option maxRecDepth 100000

/-! ## Outcomes of loops -/

theorem mapOutcome_exit_code {α β : Type} (f : α → Outcome β) (l : List α) (c : Nat)
    (hf : ∀ a c, f a = .exit c → c = 1) (h : mapOutcome f l = .exit c) : c = 1 := by
  induction l with
  | nil => simp [mapOutcome] at h
  | cons a as ih =>
    unfold mapOutcome at h
    cases hfa : f a with
    | ok b =>
      rw [hfa] at h
      cases hm : mapOutcome f as with
      | ok bs => rw [hm] at h; simp at h
      | throw e => rw [hm] at h; simp at h
      | exit c2 =>
        rw [hm] at h
        simp at h
        subst h
        exact ih hm
    | throw e => rw [hfa] at h; simp at h
    | exit c2 =>
      rw [hfa] at h
      simp at h
      subst h
      exact hf a _ hfa

theorem mapOutcome_ok_forall {α β : Type} (f : α → Outcome β) (l : List α) (bs : List β)
    (h : mapOutcome f l = .ok bs) : ∀ a ∈ l, ∃ b, f a = .ok b := by
  induction l generalizing bs with
  | nil => simp
  | cons a as ih =>
    unfold mapOutcome at h
    cases hfa : f a with
    | ok b =>
      rw [hfa] at h
      cases hm : mapOutcome f as with
      | ok bs2 =>
        intro x hx
        rcases List.mem_cons.1 hx with rfl | hx
        · exact ⟨b, hfa⟩
        · exact ih bs2 hm x hx
      | throw e => rw [hm] at h; simp at h
      | exit c2 => rw [hm] at h; simp at h
    | throw e => rw [hfa] at h; simp at h
    | exit c2 => rw [hfa] at h; simp at h

theorem mapOutcome_no_exit {α β : Type} (f : α → Outcome β) (l : List α)
    (hf : ∀ a c, f a ≠ .exit c) : ∀ c, mapOutcome f l ≠ .exit c := by
  induction l with
  | nil => simp [mapOutcome]
  | cons a as ih =>
    intro c
    unfold mapOutcome
    cases hfa : f a with
    | ok b =>
      cases hm : mapOutcome f as with
      | ok bs => simp
      | throw e => simp
      | exit c2 => exact absurd hm (ih c2)
    | throw e => simp
    | exit c2 => exact absurd hfa (hf a c2)

/-- A loop whose callback returns normally on every element returns the list
of the results. -/
theorem mapOutcome_eq_map {α β : Type} (f : α → Outcome β) (g : α → β) (l : List α)
    (h : ∀ a ∈ l, f a = .ok (g a)) : mapOutcome f l = .ok (l.map g) := by
  induction l with
  | nil => rfl
  | cons a as ih =>
    unfold mapOutcome
    rw [h a (List.mem_cons_self _ _), ih (fun x hx => h x (List.mem_cons_of_mem _ hx))]
    rfl

theorem mapOutcome_length {α β : Type} (f : α → Outcome β) (l : List α) (bs : List β)
    (h : mapOutcome f l = .ok bs) : bs.length = l.length := by
  induction l generalizing bs with
  | nil => simp [mapOutcome] at h; subst h; rfl
  | cons a as ih =>
    unfold mapOutcome at h
    cases hfa : f a with
    | ok b =>
      rw [hfa] at h
      cases hm : mapOutcome f as with
      | ok bs2 =>
        rw [hm] at h
        simp at h
        subst h
        simp [ih bs2 hm]
      | throw e => rw [hm] at h; simp at h
      | exit c2 => rw [hm] at h; simp at h
    | throw e => rw [hfa] at h; simp at h
    | exit c2 => rw [hfa] at h; simp at h

/-! ## The metadata validator -/

/-- A loop whose callback, when it returns normally, returns what `g` gives
returns the list of the `g` results when it returns normally. -/
theorem mapOutcome_ok_eq_map {α β : Type} (f : α → Outcome β) (g : α → β) (l : List α)
    (bs : List β) (hf : ∀ a b, f a = .ok b → b = g a) (h : mapOutcome f l = .ok bs) :
    bs = l.map g := by
  induction l generalizing bs with
  | nil => simp [mapOutcome] at h; subst h; rfl
  | cons a as ih =>
    unfold mapOutcome at h
    cases hfa : f a with
    | ok b =>
      rw [hfa] at h
      cases hm : mapOutcome f as with
      | ok bs2 =>
        rw [hm] at h
        simp at h
        subst h
        rw [List.map_cons, ← hf a b hfa, ← ih bs2 hm]
      | throw e => rw [hm] at h; simp at h
      | exit c2 => rw [hm] at h; simp at h
    | throw e => rw [hfa] at h; simp at h
    | exit c2 => rw [hfa] at h; simp at h

theorem toStringMethod_no_exit (env : Env) (v : Value) (c : Nat) :
    toStringMethod env v ≠ .exit c := by
  unfold toStringMethod
  split <;> simp

theorem toStringMethod_of_ne_null (env : Env) (v : Value) (h : v ≠ .tree .null) :
    toStringMethod env v = .ok (toStr env v) := by
  unfold toStringMethod
  split
  · exact absurd rfl h
  · rfl

theorem toStringMethod_ok (env : Env) (v : Value) (s : Str)
    (h : toStringMethod env v = .ok s) : s = toStr env v := by
  unfold toStringMethod at h
  split at h
  · simp at h
  · simp at h
    exact h.symm

theorem validTags_no_exit (env : Env) (v : Value) (c : Nat) : validTags env v ≠ .exit c := by
  unfold validTags
  split
  · exact mapOutcome_no_exit _ _ (toStringMethod_no_exit env) c
  · simp

theorem validTags_length (env : Env) (v : Value) (tags : List Str)
    (h : validTags env v = .ok tags) : tags.length ≤ 5 := by
  unfold validTags at h
  split at h
  · rw [mapOutcome_length _ _ _ h]
    simp
  · simp at h
    subst h
    simp

/-- The tags the validator returns: the texts of the first five elements of
an array, none for another value. -/
theorem validTags_ok (env : Env) (v : Value) (tags : List Str)
    (h : validTags env v = .ok tags) :
    tags = match elements v with
      | some items => (items.take 5).map (toStr env)
      | none => [] := by
  unfold validTags at h
  cases he : elements v with
  | some items =>
    rw [he] at h
    exact mapOutcome_ok_eq_map _ _ _ _ (toStringMethod_ok env) h
  | none =>
    rw [he] at h
    simp only [Outcome.ok.injEq] at h
    exact h.symm

theorem processFile_exit_code (env : Env) (file : Str × Option Str) (c : Nat)
    (h : processFile env file = .exit c) : c = 1 := by
  unfold processFile at h
  split at h
  · simp at h
  · split at h
    · simp at h
    · split at h
      · simp at h; exact h.symm
      · split at h
        · rename_i tags _ _ _ _
          cases hv : validTags env tags with
          | ok t => rw [hv] at h; simp [Outcome.bind] at h
          | throw e => rw [hv] at h; simp [Outcome.bind] at h
          | exit c2 => exact absurd hv (validTags_no_exit env tags c2)
        · simp at h; exact h.symm

/-- A file whose front matter has an absent or falsy required field makes the
callback exit with code 1. -/
theorem processFile_falsy (env : Env) (file : Str × Option Str) (text : Str)
    (data : List (Str × Value)) (content : Str)
    (hread : file.2 = some text) (hparse : env.matter text = some (data, content))
    (hmiss : falsy (get data "title".toList) = true ∨ falsy (get data "author".toList) = true
      ∨ falsy (get data "date".toList) = true ∨ falsy (get data "tags".toList) = true) :
    processFile env file = .exit 1 := by
  unfold processFile
  rw [hread]
  simp only [hparse]
  rw [if_pos]
  simp only [Bool.or_eq_true]
  tauto

/-- What the callback does with a file whose four required fields are truthy. -/
theorem processFile_truthy (env : Env) (file : Str × Option Str) (text : Str)
    (data : List (Str × Value)) (content : Str) (title author date tags : Value)
    (hread : file.2 = some text) (hparse : env.matter text = some (data, content))
    (h1 : get data "title".toList = some title) (h2 : get data "author".toList = some author)
    (h3 : get data "date".toList = some date) (h4 : get data "tags".toList = some tags)
    (t1 : truthy title = true) (t2 : truthy author = true) (t3 : truthy date = true)
    (t4 : truthy tags = true) :
    processFile env file = (validTags env tags).bind fun tagTexts =>
      .ok { title := title, author := author, date := date, tags := tagTexts,
            content := env.markedParse content } := by
  unfold processFile
  rw [hread]
  simp only [hparse, h1, h2, h3, h4]
  rw [if_neg]
  simp [falsy, t1, t2, t3, t4]

/-- A post the callback returns comes from a readable, parsable file whose
four required fields are truthy. -/
theorem processFile_ok_inv (env : Env) (file : Str × Option Str) (post : Post)
    (h : processFile env file = .ok post) :
    ∃ text data content tags, file.2 = some text ∧ env.matter text = some (data, content)
      ∧ get data "title".toList = some post.title ∧ get data "author".toList = some post.author
      ∧ get data "date".toList = some post.date ∧ get data "tags".toList = some tags
      ∧ truthy post.title = true ∧ truthy post.author = true ∧ truthy post.date = true
      ∧ truthy tags = true ∧ validTags env tags = .ok post.tags
      ∧ post.content = env.markedParse content := by
  unfold processFile at h
  split at h
  · simp at h
  · rename_i text hread
    split at h
    · simp at h
    · rename_i data content hparse
      split at h
      · simp at h
      · rename_i hf
        split at h
        · rename_i title author date tags h1 h2 h3 h4
          cases hv : validTags env tags with
          | ok t =>
            rw [hv] at h
            simp [Outcome.bind] at h
            subst h
            simp only [h1, h2, h3, h4, falsy, Bool.or_eq_true, not_or, Bool.not_eq_true,
              Bool.not_eq_false'] at hf
            exact ⟨text, data, content, tags, hread, hparse, h1, h2, h3, h4,
              hf.1.1.1, hf.1.1.2, hf.1.2, hf.2, hv, rfl⟩
          | throw e => rw [hv] at h; simp [Outcome.bind] at h
          | exit c2 => rw [hv] at h; simp [Outcome.bind] at h
        · simp at h

theorem getAllPosts_not_ok_of_exit (env : Env) (fs : FileSystem)
    (filenames : List (Str × Option Str)) (file : Str × Option Str)
    (hdir : fs.postsDirectory = some filenames) (hmem : file ∈ filenames)
    (hmd : endsWithMd file.1 = true) (hx : processFile env file = .exit 1) :
    ∀ posts, getAllPosts env fs ≠ .ok posts := by
  intro posts h
  unfold getAllPosts at h
  rw [hdir] at h
  simp only at h
  cases hm : mapOutcome (processFile env) (filenames.filter fun f => endsWithMd f.1) with
  | ok bs =>
    have := mapOutcome_ok_forall _ _ _ hm file (by simp [List.mem_filter, hmem, hmd])
    rw [hx] at this
    simp at this
  | throw e => rw [hm] at h; simp [Outcome.map] at h
  | exit c => rw [hm] at h; simp [Outcome.map] at h

theorem getAllPosts_exit_code (env : Env) (fs : FileSystem) (c : Nat)
    (h : getAllPosts env fs = .exit c) : c = 1 := by
  unfold getAllPosts at h
  split at h
  · simp at h
  · cases hm : mapOutcome (processFile env) _ with
    | ok bs => rw [hm] at h; simp [Outcome.map] at h
    | throw e => rw [hm] at h; simp [Outcome.map] at h
    | exit c2 =>
      rw [hm] at h
      simp [Outcome.map] at h
      subst h
      exact mapOutcome_exit_code _ _ _ (processFile_exit_code env) hm

/-- The block of a post whose title and author are text and whose date has
no reference cycle. -/
theorem generateJSONLD_text (env : Env) (post : Post) (t a : Str) (d : Tree)
    (ht : post.title = .tree (.str t)) (ha : post.author = .tree (.str a))
    (hd : post.date = .tree d) :
    generateJSONLD env post = .ok (scriptOpen ++ (serializeJSON env [] (.obj [
      ("@context".toList, .str "https://schema.org".toList),
      ("@type".toList, .str "BlogPosting".toList),
      ("headline".toList, .str (replaceQuotes t)),
      ("author".toList, .str (replaceQuotes a)),
      ("datePublished".toList, d),
      ("keywords".toList, .str (join ",".toList post.tags))]) ++ scriptClose)) := by
  simp [generateJSONLD, jsonldObject, stringify, ht, ha, hd]

/-- A post for which `generateJSONLD` returns has text title and author and a
date without reference cycle. -/
theorem generateJSONLD_ok_inv (env : Env) (post : Post) (block : Str)
    (h : generateJSONLD env post = .ok block) :
    ∃ t a d, post.title = .tree (.str t) ∧ post.author = .tree (.str a)
      ∧ post.date = .tree d := by
  unfold generateJSONLD jsonldObject at h
  split at h
  · simp at h
  · rename_i jsonld hj
    split at hj
    · rename_i t a ht ha
      split at hj
      · rename_i d hd
        exact ⟨t, a, d, ht, ha, hd⟩
      · simp only [Option.some.injEq] at hj
        subst hj
        simp [stringify] at h
    · simp at hj

/-- On a post whose date holds a reference cycle `generateJSONLD` does not
return. -/
theorem generateJSONLD_cyclic (env : Env) (post : Post) (h : ∀ d, post.date ≠ .tree d) :
    ∀ block, generateJSONLD env post ≠ .ok block := by
  intro block hg
  obtain ⟨t, a, d, -, -, hd⟩ := generateJSONLD_ok_inv env post block hg
  exact absurd hd (h d)

/-- The file with `date: &a [*a]` passes the validator; its date is the
self-containing sequence, `JSON.stringify` throws on it, and the run ends
with exit code 1 without writing. -/
theorem processFile_cyclic_date :
    processFile (sampleEnv (oneDoc docCyclicDate)) fileA = .ok postCyclicDate
      ∧ generateJSONLD (sampleEnv (oneDoc docCyclicDate)) postCyclicDate = .throw .typeError
      ∧ (buildSite (sampleEnv (oneDoc docCyclicDate)) (dirOf ["A".toList])).exitCode = 1
      ∧ (buildSite (sampleEnv (oneDoc docCyclicDate)) (dirOf ["A".toList])).writes = [] :=
  ⟨rfl, rfl, rfl, rfl⟩

/-- C2.  When some Markdown file of the posts directory has front matter in
which title, author, date or tags is absent (or falsy), `buildSite` ends with
exit code 1, never calls `writeFileSync`, and leaves the file system, the
output path included, as it was. -/
theorem buildSite_missing_metadata_aborts (env : Env) (fs : FileSystem)
    (filenames : List (Str × Option Str)) (file : Str × Option Str) (text : Str)
    (data : List (Str × Value)) (content : Str)
    (hdir : fs.postsDirectory = some filenames) (hmem : file ∈ filenames)
    (hmd : endsWithMd file.1 = true)
    (hread : file.2 = some text) (hparse : env.matter text = some (data, content))
    (hmiss : falsy (get data "title".toList) = true ∨ falsy (get data "author".toList) = true
      ∨ falsy (get data "date".toList) = true ∨ falsy (get data "tags".toList) = true) :
    (buildSite env fs).exitCode = 1 ∧ (buildSite env fs).writes = []
      ∧ (buildSite env fs).fs = fs := by
  have hx := processFile_falsy env file text data content hread hparse hmiss
  have hnot := getAllPosts_not_ok_of_exit env fs filenames file hdir hmem hmd hx
  unfold buildSite
  cases hg : getAllPosts env fs with
  | ok posts => exact absurd hg (hnot posts)
  | throw e => simp
  | exit c => simp [getAllPosts_exit_code env fs c hg]

/-- Witness for C2: of two files the second has no date; the run exits with
code 1 and `index.html`, absent before, is still absent. -/
theorem buildSite_missing_metadata_aborts_witness :
    get docNoDate "date".toList = none
      ∧ (buildSite (sampleEnv (twoDocs doc1 docNoDate)) (dirOf ["A".toList, "B".toList])).exitCode = 1
      ∧ (buildSite (sampleEnv (twoDocs doc1 docNoDate)) (dirOf ["A".toList, "B".toList])).writes = []
      ∧ (buildSite (sampleEnv (twoDocs doc1 docNoDate)) (dirOf ["A".toList, "B".toList])).fs.outputFile
          = none :=
  have h := buildSite_missing_metadata_aborts (sampleEnv (twoDocs doc1 docNoDate))
    (dirOf ["A".toList, "B".toList]) _ fileB
    "B".toList docNoDate "body".toList rfl (by decide) (by decide) rfl rfl (by decide)
  ⟨rfl, h.1, h.2.1, by rw [h.2.2]; rfl⟩

/-- C3, at the failing input.  A document whose tags sequence holds a null
entry is not turned into a post: `tag.toString()` throws a TypeError, and the
run ends with exit code 1 without writing. -/
theorem processFile_null_tag_throws :
    get docNullTag "tags".toList = some (.tree (.arr [.null]))
      ∧ processFile (sampleEnv (oneDoc docNullTag)) fileA = .throw .typeError
      ∧ (buildSite (sampleEnv (oneDoc docNullTag)) (dirOf ["A".toList])).exitCode = 1
      ∧ (buildSite (sampleEnv (oneDoc docNullTag)) (dirOf ["A".toList])).writes = [] :=
  ⟨rfl, rfl, rfl, rfl⟩

/-- When none of the first five tags is null, the post's tags are the first
five (at most) source entries in source order, each through `ToString`. -/
theorem processFile_array_tags (env : Env) (file : Str × Option Str) (text : Str)
    (data : List (Str × Value)) (content : Str) (title author date tags : Value)
    (items : List Value)
    (hread : file.2 = some text) (hparse : env.matter text = some (data, content))
    (h1 : get data "title".toList = some title) (h2 : get data "author".toList = some author)
    (h3 : get data "date".toList = some date) (h4 : get data "tags".toList = some tags)
    (h5 : elements tags = some items)
    (t1 : truthy title = true) (t2 : truthy author = true) (t3 : truthy date = true)
    (hnull : ∀ v ∈ items.take 5, v ≠ .tree .null) :
    processFile env file
        = .ok { title := title, author := author, date := date,
                tags := (items.take 5).map (toStr env), content := env.markedParse content }
      ∧ ((items.take 5).map (toStr env)).length = min items.length 5 := by
  have t4 : truthy tags = true := by
    cases tags with
    | tree t => cases t <;> first | rfl | simp [elements] at h5
    | cyclicArr _ _ => rfl
    | cyclicObj => rfl
  rw [processFile_truthy env file text data content title author date tags hread hparse
    h1 h2 h3 h4 t1 t2 t3 t4]
  constructor
  · simp only [validTags, h5]
    rw [mapOutcome_eq_map (toStringMethod env) (toStr env) _
      (fun v hv => toStringMethod_of_ne_null env v (hnull v hv))]
    rfl
  · simp [Nat.min_comm]

/-- Seven tags, the third a number: the post keeps the first five, the number
as its decimal text. -/
theorem processFile_seven_tags :
    processFile (sampleEnv (oneDoc docSevenTags)) fileA
      = .ok { title := .tree (.str "Hello".toList), author := .tree (.str "Ann".toList),
              date := .tree (.date (some 1704067200000)),
              tags := ["a".toList, "b".toList, "3".toList, "d".toList, "e".toList],
              content := "<p>body</p>\n".toList } :=
  rfl

/-- C4, refuted as stated.  A document with title, author and date whose tags
field is present and is the boolean false (not a sequence) is not accepted:
the validator exits with code 1. -/
theorem processFile_false_tags_aborts :
    get docFalseTags "tags".toList = some (.tree (.bool false))
      ∧ processFile (sampleEnv (oneDoc docFalseTags)) fileA = .exit 1 :=
  ⟨rfl, rfl⟩

/-- C4, amended.  A document whose title, author and date are truthy and
whose tags field is truthy but not a sequence is accepted, with the empty
sequence as its tags. -/
theorem processFile_truthy_nonarray_tags (env : Env) (file : Str × Option Str) (text : Str)
    (data : List (Str × Value)) (content : Str) (title author date tags : Value)
    (hread : file.2 = some text) (hparse : env.matter text = some (data, content))
    (h1 : get data "title".toList = some title) (h2 : get data "author".toList = some author)
    (h3 : get data "date".toList = some date) (h4 : get data "tags".toList = some tags)
    (t1 : truthy title = true) (t2 : truthy author = true) (t3 : truthy date = true)
    (t4 : truthy tags = true) (hseq : elements tags = none) :
    processFile env file
      = .ok { title := title, author := author, date := date, tags := [],
              content := env.markedParse content } := by
  rw [processFile_truthy env file text data content title author date tags hread hparse
    h1 h2 h3 h4 t1 t2 t3 t4]
  simp only [validTags, hseq]
  rfl

/-- Witness for amended C4: tags given as the text `news`. -/
theorem processFile_truthy_nonarray_tags_witness :
    processFile (sampleEnv (oneDoc docTextTags)) fileA
      = .ok { title := .tree (.str "Hello".toList), author := .tree (.str "Ann".toList),
              date := .tree (.date (some 1704067200000)), tags := [],
              content := (sampleEnv (oneDoc docTextTags)).markedParse "body".toList } :=
  processFile_truthy_nonarray_tags (sampleEnv (oneDoc docTextTags)) fileA "A".toList
    docTextTags "body".toList _ _ _ (.tree (.str "news".toList)) rfl rfl rfl rfl rfl rfl rfl rfl
    rfl rfl rfl

/-- C9, refuted as stated.  A document whose title is the number 42 passes the
validator; the post it yields has a title that is not text, and
`generateJSONLD` and `generatePostsHTML` throw on it. -/
theorem processFile_number_title :
    processFile (sampleEnv (oneDoc docNumberTitle)) fileA
        = .ok { title := .tree (.num 42), author := .tree (.str "Ann".toList),
                date := .tree (.date (some 1704067200000)), tags := [],
                content := "<p>body</p>\n".toList }
      ∧ generateJSONLD (sampleEnv (oneDoc docNumberTitle))
          { title := .tree (.num 42), author := .tree (.str "Ann".toList),
            date := .tree (.date (some 1704067200000)),
            tags := [], content := "<p>body</p>\n".toList } = .throw .typeError
      ∧ generatePostsHTML (sampleEnv (oneDoc docNumberTitle))
          [{ title := .tree (.num 42), author := .tree (.str "Ann".toList),
             date := .tree (.date (some 1704067200000)),
             tags := [], content := "<p>body</p>\n".toList }] = .throw .typeError :=
  ⟨rfl, rfl, rfl⟩

/-- C9, amended.  Every file that passes the validator yields a post whose
title, author and date are the truthy values of the metadata, unchanged and
of any type, and whose tags are at most 5 texts: the texts of the first five
elements when the tags metadata is an array, none otherwise.  When moreover
its title and author are text and its date holds no reference cycle, title
and author are non-empty and `generateJSONLD` and `generatePostsHTML` return
normally on it. -/
theorem processFile_ok_post (env : Env) (file : Str × Option Str) (post : Post)
    (h : processFile env file = .ok post) :
    (∃ text data content raw, file.2 = some text ∧ env.matter text = some (data, content)
        ∧ get data "title".toList = some post.title
        ∧ get data "author".toList = some post.author
        ∧ get data "date".toList = some post.date
        ∧ get data "tags".toList = some raw
        ∧ post.tags = match elements raw with
            | some items => (items.take 5).map (toStr env)
            | none => [])
      ∧ truthy post.title = true ∧ truthy post.author = true ∧ truthy post.date = true
      ∧ post.tags.length ≤ 5
      ∧ ∀ t a d, post.title = .tree (.str t) → post.author = .tree (.str a) →
          post.date = .tree d →
          t ≠ [] ∧ a ≠ [] ∧ (∃ block, generateJSONLD env post = .ok block)
            ∧ ∃ html, generatePostsHTML env [post] = .ok html := by
  obtain ⟨text, data, content, tags, hread, hparse, h1, h2, h3, h4, t1, t2, t3, -, hv, -⟩ :=
    processFile_ok_inv env file post h
  refine ⟨⟨text, data, content, tags, hread, hparse, h1, h2, h3, h4,
    validTags_ok env tags _ hv⟩, t1, t2, t3, validTags_length env tags _ hv, ?_⟩
  intro t a d ht ha hd
  rw [ht] at t1
  rw [ha] at t2
  refine ⟨?_, ?_, ⟨_, generateJSONLD_text env post t a d ht ha hd⟩, ?_⟩
  · intro h0; subst h0; simp [truthy, truthyTree] at t1
  · intro h0; subst h0; simp [truthy, truthyTree] at t2
  · simp [generatePostsHTML, mapOutcome, renderPost, generateJSONLD_text env post t a d ht ha hd,
      Outcome.map]

/-- Witness for amended C9: the first document of the example scenario. -/
theorem processFile_ok_post_witness :
    post1.tags = ["x".toList, "y".toList] ∧ post1.tags.length ≤ 5
      ∧ ∃ html, generatePostsHTML (sampleEnv (oneDoc doc1)) [post1] = .ok html :=
  have h := processFile_ok_post (sampleEnv (oneDoc doc1)) fileA post1 rfl
  ⟨rfl, h.2.2.2.2.1, (h.2.2.2.2.2 "Hello".toList "Ann".toList _ rfl rfl rfl).2.2.2⟩

/-! ## The sort of line 69 -/

theorem insertPost_perm (env : Env) (a : Post) (l : List Post) :
    (insertPost env a l).Perm (a :: l) := by
  induction l with
  | nil => exact List.Perm.refl _
  | cons b rest ih =>
    unfold insertPost
    split
    · exact List.Perm.refl _
    · exact ((List.Perm.cons b ih).trans (List.Perm.swap a b rest))

theorem sortPosts_perm (env : Env) (l : List Post) : (sortPosts env l).Perm l := by
  induction l with
  | nil => exact List.Perm.refl _
  | cons a rest ih =>
    unfold sortPosts
    exact (insertPost_perm env a _).trans (List.Perm.cons a ih)

theorem sortLE_false_later (env : Env) (a b : Post) (h : sortLE env a b = false) :
    later env b a := by
  unfold sortLE compareFn at h
  cases hb : timeValue env b.date with
  | none => simp [hb] at h
  | some tb =>
    cases ha : timeValue env a.date with
    | none => simp [hb, ha] at h
    | some ta =>
      simp [hb, ha] at h
      exact ⟨tb, ta, hb, ha, by omega⟩

theorem sortLE_true_not_later (env : Env) (a b : Post) (h : sortLE env a b = true) :
    ¬ later env b a := by
  rintro ⟨tb, ta, hb, hta, hlt⟩
  unfold sortLE compareFn at h
  simp [hb, hta] at h
  omega

theorem later_trans_not (env : Env) (a b c : Post)
    (hb : (timeValue env b.date).isSome = true)
    (hab : ¬ later env b a) (hbc : ¬ later env c b) : ¬ later env c a := by
  rintro ⟨tc, ta, hc1, ha1, hlt⟩
  obtain ⟨tb, htb⟩ := Option.isSome_iff_exists.1 hb
  have h1 : ¬ ta < tb := fun h => hab ⟨tb, ta, htb, ha1, h⟩
  have h2 : ¬ tb < tc := fun h => hbc ⟨tc, tb, hc1, htb, h⟩
  omega

theorem later_irrefl (env : Env) (a : Post) : ¬ later env a a := by
  rintro ⟨ta, tb, h1, h2, hlt⟩
  rw [h1] at h2
  cases h2
  omega

theorem insertPost_sorted (env : Env) (a : Post) (l : List Post)
    (ha : (timeValue env a.date).isSome = true)
    (hl : ∀ p ∈ l, (timeValue env p.date).isSome = true)
    (hs : l.Pairwise fun x y => ¬ later env y x) :
    (insertPost env a l).Pairwise fun x y => ¬ later env y x := by
  induction l with
  | nil => simp [insertPost]
  | cons b rest ih =>
    have hb := hl b (List.mem_cons_self _ _)
    have hrest : ∀ p ∈ rest, (timeValue env p.date).isSome = true :=
      fun p hp => hl p (List.mem_cons_of_mem _ hp)
    rw [List.pairwise_cons] at hs
    unfold insertPost
    cases hle : sortLE env a b with
    | true =>
      simp only [if_true]
      have hab := sortLE_true_not_later env a b hle
      refine List.pairwise_cons.2 ⟨?_, List.pairwise_cons.2 hs⟩
      intro y hy
      rcases List.mem_cons.1 hy with rfl | hy
      · exact hab
      · exact later_trans_not env a b y hb hab (hs.1 y hy)
    | false =>
      simp only [Bool.false_eq_true, if_false]
      have hba := sortLE_false_later env a b hle
      refine List.pairwise_cons.2 ⟨?_, ih hrest hs.2⟩
      intro y hy
      rcases List.mem_cons.1 ((insertPost_perm env a rest).subset hy) with rfl | hy
      · obtain ⟨tb, ta, h1, h2, hlt⟩ := hba
        rintro ⟨ty, tb2, h3, h4, hlt2⟩
        rw [h1] at h4
        rw [h2] at h3
        cases h3
        cases h4
        omega
      · exact hs.1 y hy

theorem sortPosts_sorted (env : Env) (l : List Post)
    (hl : ∀ p ∈ l, (timeValue env p.date).isSome = true) :
    (sortPosts env l).Pairwise fun x y => ¬ later env y x := by
  induction l with
  | nil => simp [sortPosts]
  | cons a rest ih =>
    unfold sortPosts
    have hrest : ∀ p ∈ rest, (timeValue env p.date).isSome = true :=
      fun p hp => hl p (List.mem_cons_of_mem _ hp)
    exact insertPost_sorted env a _ (hl a (List.mem_cons_self _ _))
      (fun p hp => hrest p ((sortPosts_perm env rest).subset hp)) (ih hrest)

/-- C1.  When every Markdown file passes the validator (the loop over the
files returns the posts `docs`) and every post's date gives a valid time
value, `getAllPosts` returns a rearrangement of `docs` in which a post whose
date is strictly later than another's stands at an earlier position; and
`generatePostsHTML` emits the blocks of the posts in the order of that list. -/
theorem getAllPosts_newest_first (env : Env) (fs : FileSystem)
    (filenames : List (Str × Option Str)) (docs : List Post)
    (hdir : fs.postsDirectory = some filenames)
    (hvalid : mapOutcome (processFile env) (filenames.filter fun f => endsWithMd f.1) = .ok docs)
    (hdates : ∀ p ∈ docs, (timeValue env p.date).isSome = true) :
    ∃ posts, getAllPosts env fs = .ok posts ∧ posts.Perm docs
      ∧ (∀ (i j : Fin posts.length), later env (posts.get i) (posts.get j) → i < j)
      ∧ generatePostsHTML env posts
          = (mapOutcome (renderPost env) posts).map (join "\n".toList) := by
  refine ⟨sortPosts env docs, ?_, sortPosts_perm env docs, ?_, rfl⟩
  · unfold getAllPosts
    rw [hdir]
    simp only [hvalid, Outcome.map]
  · intro i j hlater
    have hs := sortPosts_sorted env docs hdates
    rcases lt_trichotomy i j with h | h | h
    · exact h
    · subst h
      exact absurd hlater (later_irrefl env _)
    · exact absurd hlater (List.pairwise_iff_get.1 hs j i h)

/-- Witness for C1: the example scenario of the specification.  Doc1 is dated
2024-01-01 and Doc2 2024-06-01; Doc2 comes first. -/
theorem getAllPosts_newest_first_witness :
    getAllPosts (sampleEnv (twoDocs doc1 doc2)) (dirOf ["A".toList, "B".toList])
        = .ok [post2, post1]
      ∧ ∃ posts, getAllPosts (sampleEnv (twoDocs doc1 doc2)) (dirOf ["A".toList, "B".toList])
          = .ok posts ∧ posts.Perm [post1, post2]
          ∧ (∀ (i j : Fin posts.length),
              later (sampleEnv (twoDocs doc1 doc2)) (posts.get i) (posts.get j) → i < j)
          ∧ generatePostsHTML (sampleEnv (twoDocs doc1 doc2)) posts
              = (mapOutcome (renderPost (sampleEnv (twoDocs doc1 doc2))) posts).map
                  (join "\n".toList) :=
  ⟨rfl, getAllPosts_newest_first (sampleEnv (twoDocs doc1 doc2))
    (dirOf ["A".toList, "B".toList]) _ [post1, post2] rfl rfl (by
      intro p hp
      simp only [List.mem_cons, List.mem_singleton, List.not_mem_nil, or_false] at hp
      rcases hp with rfl | rfl <;> rfl)⟩

/-! ## Joining texts -/

theorem join_nil (sep : Str) : join sep [] = [] := rfl

theorem join_singleton (sep a : Str) : join sep [a] = a := by
  simp [join, List.intercalate]

theorem join_cons_cons (sep a b : Str) (l : List Str) :
    join sep (a :: b :: l) = a ++ (sep ++ join sep (b :: l)) := by
  simp [join, List.intercalate]

theorem join_append (sep : Str) (xs ys : List Str) (hx : xs ≠ []) (hy : ys ≠ []) :
    join sep (xs ++ ys) = join sep xs ++ (sep ++ join sep ys) := by
  induction xs with
  | nil => exact absurd rfl hx
  | cons a rest ih =>
    cases rest with
    | nil =>
      cases ys with
      | nil => exact absurd rfl hy
      | cons b ys => simp [join_cons_cons, join_singleton]
    | cons b rest =>
      have := ih (by simp)
      simp only [List.cons_append] at this ⊢
      rw [join_cons_cons, this, join_cons_cons]
      simp

theorem mapOutcome_cons {α β : Type} (f : α → Outcome β) (a : α) (as : List α) :
    mapOutcome f (a :: as)
      = (f a).bind fun b => (mapOutcome f as).map fun bs => b :: bs := by
  rw [mapOutcome]
  cases f a with
  | ok b => cases mapOutcome f as <;> rfl
  | throw e => rfl
  | exit c => rfl

theorem mapOutcome_append {α β : Type} (f : α → Outcome β) (xs ys : List α) :
    mapOutcome f (xs ++ ys)
      = (mapOutcome f xs).bind fun as => (mapOutcome f ys).map fun bs => as ++ bs := by
  induction xs with
  | nil =>
    rw [List.nil_append]
    cases mapOutcome f ys <;> rfl
  | cons a rest ih =>
    rw [List.cons_append, mapOutcome_cons, mapOutcome_cons, ih]
    cases f a with
    | ok b =>
      cases mapOutcome f rest with
      | ok bs => cases mapOutcome f ys <;> rfl
      | throw e => rfl
      | exit c => rfl
    | throw e => rfl
    | exit c => rfl

theorem mapOutcome_ne_nil {α β : Type} (f : α → Outcome β) (l : List α) (bs : List β)
    (h : mapOutcome f l = .ok bs) (hl : l ≠ []) : bs ≠ [] := by
  intro hb
  have := mapOutcome_length f l bs h
  rw [hb] at this
  exact hl (List.length_eq_zero.1 this.symm)

theorem generatePostsHTML_append (env : Env) (xs ys : List Post) (hx : xs ≠ []) (hy : ys ≠ []) :
    generatePostsHTML env (xs ++ ys)
      = (generatePostsHTML env xs).bind fun a =>
          (generatePostsHTML env ys).map fun b => a ++ ("\n".toList ++ b) := by
  unfold generatePostsHTML
  rw [mapOutcome_append]
  cases h1 : mapOutcome (renderPost env) xs with
  | ok as =>
    cases h2 : mapOutcome (renderPost env) ys with
    | ok bs =>
      simp only [Outcome.bind, Outcome.map]
      rw [join_append _ _ _ (mapOutcome_ne_nil _ _ _ h1 hx) (mapOutcome_ne_nil _ _ _ h2 hy)]
    | throw e => rfl
    | exit c => rfl
  | throw e => rfl
  | exit c => rfl

/-! ## Decimal text of numbers -/

theorem isDigit_digitChar (d : Nat) (h : d < 10) : isDigit (digitChar d) = true := by
  interval_cases d <;> decide

theorem digitChar_ne_zero (d : Nat) (h : d < 10) (h0 : d ≠ 0) : digitChar d ≠ '0' := by
  interval_cases d <;> first | exact absurd rfl h0 | decide

theorem natDigits_acc (fuel n : Nat) (acc : Str) :
    natDigits fuel n acc = natDigits fuel n [] ++ acc := by
  induction fuel generalizing n acc with
  | zero => simp [natDigits]
  | succ fuel ih =>
    unfold natDigits
    split
    · simp
    · rw [ih, ih (n / 10) [digitChar (n % 10)]]
      simp

theorem natDigits_digits (fuel n : Nat) : ∀ c ∈ natDigits fuel n [], isDigit c = true := by
  induction fuel generalizing n with
  | zero => simp [natDigits]
  | succ fuel ih =>
    unfold natDigits
    split
    · intro c hc
      simp only [List.mem_singleton] at hc
      subst hc
      exact isDigit_digitChar _ (Nat.mod_lt _ (by norm_num))
    · rw [natDigits_acc]
      intro c hc
      rcases List.mem_append.1 hc with h | h
      · exact ih _ c h
      · simp only [List.mem_singleton] at h
        subst h
        exact isDigit_digitChar _ (Nat.mod_lt _ (by norm_num))

/-- The decimal text of a number starts with a digit; the digit is zero only
for the number zero, whose text is the single digit. -/
theorem natDigits_head (fuel n : Nat) (h : n < fuel) :
    ∃ c cs, natDigits fuel n [] = c :: cs ∧ isDigit c = true
      ∧ (c = '0' → cs = []) := by
  induction fuel generalizing n with
  | zero => omega
  | succ fuel ih =>
    unfold natDigits
    split
    · exact ⟨_, [], rfl, isDigit_digitChar _ (Nat.mod_lt _ (by norm_num)), fun _ => rfl⟩
    · rename_i hn
      rw [natDigits_acc]
      have hlt : n / 10 < fuel := by omega
      obtain ⟨c, cs, hcs, hd, hz⟩ := ih (n / 10) hlt
      refine ⟨c, cs ++ [digitChar (n % 10)], by rw [hcs]; rfl, hd, ?_⟩
      intro hc0
      exfalso
      have hcs0 := hz hc0
      subst hcs0
      subst hc0
      -- the leading digit of a positive number is not zero
      have : natDigits fuel (n / 10) [] ≠ ['0'] := by
        clear hcs hz ih hd
        have hpos : n / 10 ≠ 0 := hn
        generalize n / 10 = m at hpos hlt
        clear hn h
        induction fuel generalizing m with
        | zero => omega
        | succ fuel ih2 =>
          unfold natDigits
          split
          · rename_i hm
            have hm2 : m % 10 = m := by omega
            have : m % 10 ≠ 0 := by omega
            intro heq
            simp only [List.cons.injEq, and_true] at heq
            exact digitChar_ne_zero _ (Nat.mod_lt _ (by norm_num)) this heq
          · rw [natDigits_acc]
            intro heq
            have hlen := congrArg List.length heq
            simp only [List.length_append, List.length_singleton] at hlen
            have hnil : natDigits fuel (m / 10) [] = [] :=
              List.length_eq_zero.1 (by omega)
            have hfuel : 0 < fuel := by omega
            cases fuel with
            | zero => omega
            | succ f =>
              unfold natDigits at hnil
              split at hnil
              · simp at hnil
              · rw [natDigits_acc] at hnil
                simp at hnil
      exact this hcs

theorem natToString_head (n : Nat) :
    ∃ c cs, natToString n = c :: cs ∧ isDigit c = true ∧ (c = '0' → cs = []) :=
  natDigits_head (n + 1) n (Nat.lt_succ_self n)

theorem natToString_digits (n : Nat) : ∀ c ∈ natToString n, isDigit c = true :=
  natDigits_digits (n + 1) n

theorem numberToString_chars (n : Int) :
    ∀ c ∈ numberToString n, c = '-' ∨ isDigit c = true := by
  cases n with
  | ofNat m => exact fun c hc => Or.inr (natToString_digits m c hc)
  | negSucc m =>
    intro c hc
    rcases List.mem_cons.1 hc with h | h
    · exact Or.inl h
    · exact Or.inr (natToString_digits _ c h)

/-! ## Counting occurrences of a tag -/

theorem countOccurrences_nil (p : Str) (hp : p ≠ []) : countOccurrences p [] = 0 := by
  cases p with
  | nil => exact absurd rfl hp
  | cons c cs => rfl

theorem countOccurrences_cons (p : Str) (c : Char) (cs : Str) :
    countOccurrences p (c :: cs)
      = (if p.isPrefixOf (c :: cs) then 1 else 0) + countOccurrences p cs := rfl

/-- A pattern that does not contain the character `c` cannot run past a `c`. -/
theorem isPrefixOf_append_of_not_mem (q a b : Str) (c : Char) (hc : c ∉ q) :
    q.isPrefixOf (a ++ c :: b) = q.isPrefixOf a := by
  induction q generalizing a with
  | nil => simp [List.isPrefixOf]
  | cons y q ih =>
    have hy : y ≠ c := fun h => hc (h ▸ List.mem_cons_self _ _)
    have hq : c ∉ q := fun h => hc (List.mem_cons_of_mem _ h)
    cases a with
    | nil => simp [List.isPrefixOf, hy]
    | cons x a => simp [List.isPrefixOf, ih a hq]

/-- No occurrence straddles a boundary after which comes a character that the
pattern has only in first position, if at all. -/
theorem countOccurrences_append_head (p a b : Str) (c : Char) (hp : p ≠ [])
    (hc : c ∉ p.tail) :
    countOccurrences p (a ++ c :: b) = countOccurrences p a + countOccurrences p (c :: b) := by
  induction a with
  | nil => simp [countOccurrences_nil p hp]
  | cons x a ih =>
    cases p with
    | nil => exact absurd rfl hp
    | cons y q =>
      rw [List.cons_append, countOccurrences_cons, countOccurrences_cons, ih]
      have : (y :: q).isPrefixOf (x :: (a ++ c :: b)) = (y :: q).isPrefixOf (x :: a) := by
        simp only [List.isPrefixOf]
        rw [isPrefixOf_append_of_not_mem q a b c hc]
      rw [this]
      omega

/-- A pattern that has the character `c` only in last position, if at all,
and that starts before a `c` ends with that `c` or earlier. -/
theorem isPrefixOf_append_of_not_mem_dropLast (q a b : Str) (c : Char)
    (hc : c ∉ q.dropLast) :
    q.isPrefixOf (a ++ c :: b) = q.isPrefixOf (a ++ [c]) := by
  induction a generalizing q with
  | nil =>
    cases q with
    | nil => simp [List.isPrefixOf]
    | cons y q =>
      cases q with
      | nil => simp [List.isPrefixOf]
      | cons y2 q =>
        have hy : y ≠ c := fun h => hc (by simp [List.dropLast, h])
        simp [List.isPrefixOf, hy]
  | cons x a ih =>
    cases q with
    | nil => simp [List.isPrefixOf]
    | cons y q =>
      have hq : c ∉ q.dropLast := by
        cases q with
        | nil => simp
        | cons y2 q => exact fun h => hc (by simp [List.dropLast] at h ⊢; exact Or.inr h)
      simp [List.isPrefixOf, ih q hq]

/-- No occurrence straddles a boundary before which comes a character that
the pattern has only in last position, if at all. -/
theorem countOccurrences_append_last (p a b : Str) (c : Char) (hp : p ≠ [])
    (hc : c ∉ p.dropLast) :
    countOccurrences p (a ++ c :: b) = countOccurrences p (a ++ [c]) + countOccurrences p b := by
  induction a with
  | nil =>
    have := isPrefixOf_append_of_not_mem_dropLast p [] b c hc
    simp only [List.nil_append] at this
    rw [List.nil_append, List.nil_append, countOccurrences_cons, countOccurrences_cons,
      countOccurrences_nil p hp, this]
    omega
  | cons x a ih =>
    have := isPrefixOf_append_of_not_mem_dropLast p (x :: a) b c hc
    simp only [List.cons_append] at this
    rw [List.cons_append, List.cons_append, countOccurrences_cons, countOccurrences_cons, ih,
      this]
    omega

/-- A piece of template text that starts and ends with characters foreign to
the inside of the pattern separates the counts on its two sides. -/
theorem countOccurrences_segment (p seg a b : Str) (hp : p ≠ []) (hseg : seg ≠ [])
    (hfirst : ∀ c ∈ seg.head?, c ∉ p.tail) (hlast : ∀ c ∈ seg.getLast?, c ∉ p.dropLast) :
    countOccurrences p (a ++ (seg ++ b))
      = countOccurrences p a + (countOccurrences p seg + countOccurrences p b) := by
  obtain ⟨c, s1, rfl⟩ := List.exists_cons_of_ne_nil hseg
  have h1 : c ∉ p.tail := hfirst c (by simp)
  rw [List.cons_append, countOccurrences_append_head p a _ c hp h1, ← List.cons_append]
  congr 1
  obtain ⟨s2, d, hd⟩ : ∃ s2 d, c :: s1 = s2 ++ [d] :=
    ⟨(c :: s1).dropLast, (c :: s1).getLast (by simp),
      (List.dropLast_append_getLast (by simp)).symm⟩
  have h2 : d ∉ p.dropLast := hlast d (by rw [hd]; simp)
  rw [hd, List.append_assoc, List.singleton_append,
    countOccurrences_append_last p s2 b d hp h2]

/-- A text without the first character of the pattern has no occurrence. -/
theorem countOccurrences_eq_zero (p s : Str) (c : Char) (hp : p.head? = some c) (hs : c ∉ s) :
    countOccurrences p s = 0 := by
  cases p with
  | nil => simp at hp
  | cons y q =>
    simp only [List.head?_cons, Option.some.injEq] at hp
    subst hp
    induction s with
    | nil => rfl
    | cons x s ih =>
      have hx : y ≠ x := fun h => hs (h ▸ List.mem_cons_self _ _)
      rw [countOccurrences_cons, ih (fun h => hs (List.mem_cons_of_mem _ h))]
      simp [List.isPrefixOf, hx]

/-! ## Article tags in the page -/

theorem articleTag_ne_nil : articleTag ≠ [] := by decide

/-- The count splits at a piece of the page template. -/
theorem count_template (seg a b : Str) (hseg : seg ≠ [])
    (hfirst : ∀ c ∈ seg.head?, c ∉ articleTag.tail)
    (hlast : ∀ c ∈ seg.getLast?, c ∉ articleTag.dropLast) :
    countOccurrences articleTag (a ++ (seg ++ b))
      = countOccurrences articleTag a
        + (countOccurrences articleTag seg + countOccurrences articleTag b) :=
  countOccurrences_segment articleTag seg a b articleTag_ne_nil hseg hfirst hlast

theorem count_template_front (seg b : Str) (hseg : seg ≠ [])
    (hfirst : ∀ c ∈ seg.head?, c ∉ articleTag.tail)
    (hlast : ∀ c ∈ seg.getLast?, c ∉ articleTag.dropLast) :
    countOccurrences articleTag (seg ++ b)
      = countOccurrences articleTag seg + countOccurrences articleTag b := by
  have := count_template seg [] b hseg hfirst hlast
  simpa [countOccurrences_nil articleTag articleTag_ne_nil] using this

theorem count_template_back (seg a : Str) (hseg : seg ≠ [])
    (hfirst : ∀ c ∈ seg.head?, c ∉ articleTag.tail)
    (hlast : ∀ c ∈ seg.getLast?, c ∉ articleTag.dropLast) :
    countOccurrences articleTag (a ++ seg)
      = countOccurrences articleTag a + countOccurrences articleTag seg := by
  have := count_template seg a [] hseg hfirst hlast
  simpa [countOccurrences_nil articleTag articleTag_ne_nil] using this

/-- The block of one post holds the tag of the template once, and whatever
the interpolated texts hold. -/
theorem count_block (title author date tags jsonld content : Str) :
    countOccurrences articleTag
        (seg0 ++ (title ++ (seg1 ++ (author ++ (seg2 ++ (date ++ (seg3 ++ (tags ++ (seg4 ++
          (jsonld ++ (seg5 ++ (content ++ seg6))))))))))))
      = 1 + (countOccurrences articleTag title + countOccurrences articleTag author
          + countOccurrences articleTag date + countOccurrences articleTag tags
          + countOccurrences articleTag jsonld + countOccurrences articleTag content) := by
  rw [count_template_front seg0 _ (by decide) (by decide) (by decide),
    count_template seg1 _ _ (by decide) (by decide) (by decide),
    count_template seg2 _ _ (by decide) (by decide) (by decide),
    count_template seg3 _ _ (by decide) (by decide) (by decide),
    count_template seg4 _ _ (by decide) (by decide) (by decide),
    count_template seg5 _ _ (by decide) (by decide) (by decide),
    count_template_back seg6 _ (by decide) (by decide) (by decide)]
  have h0 : countOccurrences articleTag seg0 = 1 := by decide
  have h1 : countOccurrences articleTag seg1 = 0 := by decide
  have h2 : countOccurrences articleTag seg2 = 0 := by decide
  have h3 : countOccurrences articleTag seg3 = 0 := by decide
  have h4 : countOccurrences articleTag seg4 = 0 := by decide
  have h5 : countOccurrences articleTag seg5 = 0 := by decide
  have h6 : countOccurrences articleTag seg6 = 0 := by decide
  rw [h0, h1, h2, h3, h4, h5, h6]
  omega

theorem count_join_newline (blocks : List Str) :
    countOccurrences articleTag (join "\n".toList blocks)
      = (blocks.map (countOccurrences articleTag)).sum := by
  induction blocks with
  | nil => rfl
  | cons b rest ih =>
    cases rest with
    | nil => simp [join_singleton]
    | cons b2 rest =>
      rw [join_cons_cons, count_template "\n".toList _ _ (by decide) (by decide) (by decide), ih]
      have : countOccurrences articleTag "\n".toList = 0 := by decide
      rw [this]
      simp

theorem count_numberToString (n : Int) : countOccurrences articleTag (numberToString n) = 0 := by
  apply countOccurrences_eq_zero articleTag _ '<' rfl
  intro h
  rcases numberToString_chars n _ h with h1 | h1
  · exact absurd h1 (by decide)
  · exact absurd h1 (by decide)

theorem count_index (env : Env) (html : Str) :
    countOccurrences articleTag (generateIndexHTML env html)
      = countOccurrences articleTag html := by
  unfold generateIndexHTML indexFoot
  rw [count_template_front indexHead _ (by decide) (by decide) (by decide),
    count_template indexMid _ _ (by decide) (by decide) (by decide),
    count_template_back indexTail _ (by decide) (by decide) (by decide),
    count_numberToString]
  have h0 : countOccurrences articleTag indexHead = 0 := by decide
  have h1 : countOccurrences articleTag indexMid = 0 := by decide
  have h2 : countOccurrences articleTag indexTail = 0 := by decide
  rw [h0, h1, h2]
  omega

theorem mapOutcome_cons_ok {α β : Type} (f : α → Outcome β) (a : α) (as : List α)
    (bs : List β) (h : mapOutcome f (a :: as) = .ok bs) :
    ∃ b bs2, f a = .ok b ∧ mapOutcome f as = .ok bs2 ∧ bs = b :: bs2 := by
  rw [mapOutcome_cons] at h
  cases hfa : f a with
  | ok b =>
    rw [hfa] at h
    cases hm : mapOutcome f as with
    | ok bs2 =>
      rw [hm] at h
      simp [Outcome.bind, Outcome.map] at h
      exact ⟨b, bs2, rfl, rfl, h.symm⟩
    | throw e => rw [hm] at h; simp [Outcome.bind, Outcome.map] at h
    | exit c => rw [hm] at h; simp [Outcome.bind, Outcome.map] at h
  | throw e => rw [hfa] at h; simp [Outcome.bind] at h
  | exit c => rw [hfa] at h; simp [Outcome.bind] at h

/-- A block that `renderPost` returns is the template around the six
interpolated texts. -/
theorem renderPost_ok (env : Env) (post : Post) (block : Str)
    (h : renderPost env post = .ok block) :
    block = seg0 ++ (toStr env post.title ++ (seg1 ++ (toStr env post.author
      ++ (seg2 ++ (toStr env post.date ++ (seg3 ++ (join ", ".toList post.tags ++ (seg4 ++
        (jsonldText env post ++ (seg5 ++ (post.content ++ seg6))))))))))) := by
  unfold renderPost at h
  unfold jsonldText
  cases hg : generateJSONLD env post with
  | ok jsonld =>
    rw [hg] at h
    simp only [Outcome.map, Outcome.ok.injEq] at h
    exact h.symm
  | throw e => rw [hg] at h; simp [Outcome.map] at h
  | exit c => rw [hg] at h; simp [Outcome.map] at h

/-- The block of a post whose title and author are text and whose date holds no
reference cycle is returned. -/
theorem renderPost_total (env : Env) (post : Post) (t a : Str) (d : Tree)
    (ht : post.title = .tree (.str t)) (ha : post.author = .tree (.str a))
    (hd : post.date = .tree d) : ∃ block, renderPost env post = .ok block := by
  unfold renderPost
  rw [generateJSONLD_text env post t a d ht ha hd]
  exact ⟨_, rfl⟩

theorem count_blocks (env : Env) (posts : List Post) (blocks : List Str)
    (h : mapOutcome (renderPost env) posts = .ok blocks) :
    (blocks.map (countOccurrences articleTag)).sum
      = posts.length + (posts.map (interpolatedTags env)).sum := by
  induction posts generalizing blocks with
  | nil =>
    simp [mapOutcome] at h
    subst h
    rfl
  | cons p rest ih =>
    obtain ⟨b, bs, hb, hbs, rfl⟩ := mapOutcome_cons_ok _ _ _ _ h
    have hc : countOccurrences articleTag b = 1 + interpolatedTags env p := by
      rw [renderPost_ok env p b hb]
      exact count_block _ _ _ _ _ _
    simp only [List.map_cons, List.sum_cons, List.length_cons, hc, ih bs hbs]
    omega

/-- In a page that is generated the article tags are one per post plus those
inside the interpolated texts. -/
theorem count_page (env : Env) (posts : List Post) (html : Str)
    (h : generatePostsHTML env posts = .ok html) :
    countOccurrences articleTag (generateIndexHTML env html)
      = posts.length + (posts.map (interpolatedTags env)).sum := by
  unfold generatePostsHTML at h
  cases hm : mapOutcome (renderPost env) posts with
  | ok blocks =>
    rw [hm] at h
    simp only [Outcome.map, Outcome.ok.injEq] at h
    subst h
    rw [count_index, count_join_newline, count_blocks env posts blocks hm]
  | throw e => rw [hm] at h; simp [Outcome.map] at h
  | exit c => rw [hm] at h; simp [Outcome.map] at h

/-- The page is generated when every title and author is text and no date
holds a reference cycle. -/
theorem generatePostsHTML_total (env : Env) (posts : List Post)
    (htext : ∀ p ∈ posts, ∃ t a d, p.title = .tree (.str t) ∧ p.author = .tree (.str a)
      ∧ p.date = .tree d) :
    ∃ html, generatePostsHTML env posts = .ok html := by
  have hblocks : ∃ blocks, mapOutcome (renderPost env) posts = .ok blocks := by
    induction posts with
    | nil => exact ⟨[], rfl⟩
    | cons p rest ih =>
      obtain ⟨t, a, d, ht, ha, hd⟩ := htext p (List.mem_cons_self _ _)
      obtain ⟨block, hb⟩ := renderPost_total env p t a d ht ha hd
      obtain ⟨blocks, hbs⟩ := ih (fun q hq => htext q (List.mem_cons_of_mem _ hq))
      exact ⟨block :: blocks, by rw [mapOutcome_cons, hb, hbs]; rfl⟩
  obtain ⟨blocks, hbs⟩ := hblocks
  exact ⟨join "\n".toList blocks, by unfold generatePostsHTML; rw [hbs]; rfl⟩

/-- C8, refuted as stated.  One valid input document whose title is the text
`<article>` gives a page with three article tags: the one of the template, the
one in the heading and the one in the structured-data block. -/
theorem article_count_tag_in_title :
    getAllPosts (sampleEnv (oneDoc docTagTitle)) (dirOf ["A".toList]) = .ok [postTagTitle]
      ∧ ∃ html, generatePostsHTML (sampleEnv (oneDoc docTagTitle)) [postTagTitle] = .ok html
        ∧ countOccurrences articleTag (generateIndexHTML (sampleEnv (oneDoc docTagTitle)) html)
            = 3 := by
  refine ⟨rfl, ?_⟩
  obtain ⟨html, h1⟩ := generatePostsHTML_total (sampleEnv (oneDoc docTagTitle)) [postTagTitle]
    (by
      intro p hp
      simp only [List.mem_singleton] at hp
      subst hp
      exact ⟨_, _, _, rfl, rfl, rfl⟩)
  refine ⟨html, h1, ?_⟩
  rw [count_page _ _ _ h1]
  decide

/-- C8, amended.  In every page that is generated, the number of article tags
is the number of posts plus the number of article tags inside the interpolated
texts (title, author, date, joined tags, structured-data block, rendered
body); it is the number of posts when none of these texts holds the tag.  The
page is generated whenever every title and author is text and no date holds a
reference cycle. -/
theorem article_count (env : Env) (posts : List Post) :
    (∀ html, generatePostsHTML env posts = .ok html →
        countOccurrences articleTag (generateIndexHTML env html)
            = posts.length + (posts.map (interpolatedTags env)).sum
          ∧ ((∀ p ∈ posts, interpolatedTags env p = 0) →
              countOccurrences articleTag (generateIndexHTML env html) = posts.length))
      ∧ ((∀ p ∈ posts, ∃ t a d, p.title = .tree (.str t) ∧ p.author = .tree (.str a)
            ∧ p.date = .tree d) →
          ∃ html, generatePostsHTML env posts = .ok html) := by
  refine ⟨?_, generatePostsHTML_total env posts⟩
  intro html h1
  have h2 := count_page env posts html h1
  refine ⟨h2, ?_⟩
  intro h0
  rw [h2]
  have : (posts.map (interpolatedTags env)).sum = 0 := by
    apply List.sum_eq_zero
    intro x hx
    obtain ⟨p, hp, rfl⟩ := List.mem_map.1 hx
    exact h0 p hp
  omega

/-- Witness for amended C8: the two posts of the example scenario give a page
with two article tags. -/
theorem article_count_witness :
    ∃ html, generatePostsHTML (sampleEnv []) [post2, post1] = .ok html
      ∧ countOccurrences articleTag (generateIndexHTML (sampleEnv []) html) = 2 := by
  have h := article_count (sampleEnv []) [post2, post1]
  obtain ⟨html, hgen⟩ := h.2 (by
    intro p hp
    simp only [List.mem_cons, List.mem_singleton, List.not_mem_nil, or_false] at hp
    rcases hp with rfl | rfl <;> exact ⟨_, _, _, rfl, rfl, rfl⟩)
  refine ⟨html, hgen, ?_⟩
  have hc := (h.1 html hgen).2 (by
    intro p hp
    simp only [List.mem_cons, List.mem_singleton, List.not_mem_nil, or_false] at hp
    rcases hp with rfl | rfl <;> decide)
  rw [hc]
  rfl

/-- C10.  The text of `generatePostsHTML` for two non-empty collections put
end to end is the text for the first, a newline, and the text for the second
(and it fails when either fails).  The block of a post is, in this order, the
heading with the title, the byline with author and date, the tags joined by
comma and space, the structured-data block of `generateJSONLD`, the rendered
body, and the `<hr>` separator followed by a line break and indentation.
`generateIndexHTML` puts the text unchanged between the fixed head of the page
skeleton and a foot that is fixed but for the current year. -/
theorem generatePostsHTML_blocks (env : Env) (xs ys : List Post) (post : Post) (jsonld : Str)
    (hx : xs ≠ []) (hy : ys ≠ []) (hj : generateJSONLD env post = .ok jsonld) :
    generatePostsHTML env (xs ++ ys)
        = ((generatePostsHTML env xs).bind fun a =>
            (generatePostsHTML env ys).map fun b => a ++ ("\n".toList ++ b))
      ∧ generatePostsHTML env [post] = .ok (
          "\n        <article>\n            <header>\n                <h2>".toList
          ++ (toStr env post.title ++ ("</h2>\n                <p>By ".toList
          ++ (toStr env post.author ++ (" on ".toList
          ++ (toStr env post.date ++ ("</p>\n                <p>Tags: ".toList
          ++ (join ", ".toList post.tags ++ ("</p>\n            </header>\n            ".toList
          ++ (jsonld ++ ("\n            <section>\n                ".toList
          ++ (post.content ++ ("\n            </section>\n        </article>\n        <hr>".toList
          ++ "\n        ".toList)))))))))))))
      ∧ (∀ (env2 : Env) (html : Str),
          generateIndexHTML env2 html = indexHead ++ (html ++ indexFoot env2.currentYear))
      ∧ indexHead = "<!DOCTYPE html>\n    <html lang=\"en\">\n    <head>\n        <meta charset=\"UTF-8\">\n        <meta name=\"viewport\" content=\"width=device-width, initial-scale=1.0\">\n        <title>My Static Blog</title>\n        <link rel=\"stylesheet\" href=\"styles.css\">\n    </head>\n    <body>\n        <header>\n            <h1>My Static Blog</h1>\n        </header>\n        <main>\n            <!-- Blog Posts -->\n            <!-- Each blog post is inserted here in reverse chronological order -->\n            ".toList
      ∧ ∀ year : Int, indexFoot year
          = "\n        </main>\n        <footer>\n            <p>&copy; ".toList
            ++ (numberToString year
            ++ " My Static Blog</p>\n        </footer>\n    </body>\n    </html>".toList) := by
  refine ⟨generatePostsHTML_append env xs ys hx hy, ?_, fun _ _ => rfl, rfl, fun _ => rfl⟩
  simp only [generatePostsHTML, mapOutcome, renderPost, hj, Outcome.map, join_singleton]
  rfl

/-- Witness for C10: the two posts of the example scenario, one collection
each, and the block of the first document. -/
theorem generatePostsHTML_blocks_witness :
    generatePostsHTML (sampleEnv []) ([post2] ++ [post1])
        = ((generatePostsHTML (sampleEnv []) [post2]).bind fun a =>
            (generatePostsHTML (sampleEnv []) [post1]).map fun b => a ++ ("\n".toList ++ b))
      ∧ generatePostsHTML (sampleEnv []) [post1] = .ok (
          "\n        <article>\n            <header>\n                <h2>".toList
          ++ ("Hello".toList ++ ("</h2>\n                <p>By ".toList
          ++ ("Ann".toList ++ (" on ".toList
          ++ ("1704067200000".toList ++ ("</p>\n                <p>Tags: ".toList
          ++ ("x, y".toList ++ ("</p>\n            </header>\n            ".toList
          ++ (jsonldText (sampleEnv []) post1
          ++ ("\n            <section>\n                ".toList
          ++ ("<p>body</p>\n".toList
          ++ ("\n            </section>\n        </article>\n        <hr>".toList
          ++ "\n        ".toList)))))))))))))
      ∧ generateIndexHTML (sampleEnv []) "POSTS".toList
          = indexHead ++ ("POSTS".toList ++ indexFoot 2024)
      ∧ indexFoot 2024
          = "\n        </main>\n        <footer>\n            <p>&copy; 2024 My Static Blog</p>\n        </footer>\n    </body>\n    </html>".toList :=
  have h := generatePostsHTML_blocks (sampleEnv []) [post2] [post1] post1
    (jsonldText (sampleEnv []) post1) (by simp) (by simp) rfl
  ⟨h.1, h.2.1, h.2.2.1 (sampleEnv []) "POSTS".toList, (h.2.2.2.2 2024).trans rfl⟩

/-! ## Reading back what `JSON.stringify` wrote -/

theorem skipWs_of_not_ws (c : Char) (s : Str) (h : isWs c = false) :
    skipWs (c :: s) = c :: s := by
  simp [skipWs, h]

theorem skipWs_spaces (ws s : Str) (h : ∀ c ∈ ws, isWs c = true) :
    skipWs (ws ++ s) = skipWs s := by
  induction ws with
  | nil => rfl
  | cons c ws ih =>
    have hc := h c (List.mem_cons_self _ _)
    simp only [List.cons_append, skipWs, hc, if_true]
    exact ih (fun d hd => h d (List.mem_cons_of_mem _ hd))

theorem hexValue_hexDigit (d : Nat) (h : d < 16) : hexValue (hexDigit d) = some d := by
  interval_cases d <;> decide

theorem readString_escape (e ch : Char) (tail : Str) (he : e ≠ 'u') (hu : unescape e = some ch) :
    readString ('\\' :: e :: tail)
      = match readString tail with
        | some (s, r) => some (ch :: s, r)
        | none => none := by
  rw [readString.eq_def]
  simp only [show ('\\' : Char) ≠ '"' by decide, if_false, if_true, he, hu]
  cases readString tail with
  | none => rfl
  | some p => rfl

theorem readString_control (n : Nat) (tail : Str) (h : n < 32) :
    readString ('\\' :: 'u' :: '0' :: '0' :: hexDigit (n / 16) :: hexDigit (n % 16) :: tail)
      = match readString tail with
        | some (s, r) => some (Char.ofNat n :: s, r)
        | none => none := by
  rw [readString.eq_def]
  simp only [show ('\\' : Char) ≠ '"' by decide, if_false, if_true]
  rw [hexValue_hexDigit _ (by omega), hexValue_hexDigit _ (by omega)]
  have h0 : hexValue '0' = some 0 := by decide
  simp only [h0]
  have : ((0 * 16 + 0) * 16 + n / 16) * 16 + n % 16 = n := by omega
  cases readString tail with
  | none => rfl
  | some p => simp only [this]

theorem readString_plain (c : Char) (tail : Str) (h1 : c ≠ '"') (h2 : c ≠ '\\')
    (h3 : ¬ c.toNat < 32) :
    readString (c :: tail)
      = match readString tail with
        | some (s, r) => some (c :: s, r)
        | none => none := by
  rw [readString.eq_def]
  simp only [h1, h2, h3, if_false]

theorem readString_quoteChar (c : Char) (tail : Str) :
    readString (quoteChar c ++ tail)
      = match readString tail with
        | some (s, r) => some (c :: s, r)
        | none => none := by
  unfold quoteChar
  split
  · rename_i h; subst h
    exact readString_escape '"' '"' tail (by decide) (by decide)
  split
  · rename_i h; subst h
    exact readString_escape '\\' '\\' tail (by decide) (by decide)
  split
  · rename_i h; subst h
    exact readString_escape 'b' _ tail (by decide) (by decide)
  split
  · rename_i h; subst h
    exact readString_escape 'f' _ tail (by decide) (by decide)
  split
  · rename_i h; subst h
    exact readString_escape 'n' _ tail (by decide) (by decide)
  split
  · rename_i h; subst h
    exact readString_escape 'r' _ tail (by decide) (by decide)
  split
  · rename_i h; subst h
    exact readString_escape 't' _ tail (by decide) (by decide)
  split
  · rename_i h
    have := readString_control c.toNat tail h
    rw [Char.ofNat_toNat] at this
    exact this
  · rename_i h1 h2 h3 h4 h5 h6 h7 h8
    exact readString_plain c tail h1 h2 h8

/-- Reading a quoted text gives the text back. -/
theorem readString_quoteBody (s rest : Str) :
    readString (quoteBody s ++ '"' :: rest) = some (s, rest) := by
  induction s with
  | nil => rw [quoteBody, List.nil_append, readString.eq_def]; simp
  | cons c s ih =>
    rw [quoteBody, List.append_assoc, readString_quoteChar, ih]

theorem endsValue_not_digit (rest : Str) (h : endsValue rest) :
    ∀ c ∈ rest.head?, isDigit c = false ∧ c ≠ '.' ∧ c ≠ 'e' ∧ c ≠ 'E' := by
  intro c hc
  rcases h c hc with rfl | rfl <;> decide

theorem takeDigits_append (ds rest : Str) (hds : ∀ c ∈ ds, isDigit c = true)
    (hrest : ∀ c ∈ rest.head?, isDigit c = false) :
    takeDigits (ds ++ rest) = (ds, rest) := by
  induction ds with
  | nil =>
    cases rest with
    | nil => rfl
    | cons c rest =>
      have := hrest c (by simp)
      simp [takeDigits, this]
  | cons d ds ih =>
    have hd := hds d (List.mem_cons_self _ _)
    have := ih (fun c hc => hds c (List.mem_cons_of_mem _ hc))
    simp [takeDigits, hd, this]

theorem readInt_natToString (n : Nat) (rest : Str)
    (hrest : ∀ c ∈ rest.head?, isDigit c = false) :
    readInt (natToString n ++ rest) = some (natToString n, rest) := by
  obtain ⟨c, cs, hcs, hd, hz⟩ := natToString_head n
  have hall := natToString_digits n
  rw [hcs] at hall ⊢
  rw [List.cons_append, readInt]
  by_cases h0 : c = '0'
  · rw [if_pos h0, hz h0, h0]
    rfl
  · rw [if_neg h0, if_pos hd,
      takeDigits_append cs rest (fun d hd => hall d (List.mem_cons_of_mem _ hd)) hrest]

theorem readFrac_none (rest : Str) (h : ∀ c ∈ rest.head?, c ≠ '.') :
    readFrac rest = some ([], rest) := by
  cases rest with
  | nil => rfl
  | cons c rest =>
    have := h c (by simp)
    simp [readFrac, this]

theorem readExp_none (rest : Str) (h : ∀ c ∈ rest.head?, c ≠ 'e' ∧ c ≠ 'E') :
    readExp rest = some ([], rest) := by
  cases rest with
  | nil => rfl
  | cons c rest =>
    have := h c (by simp)
    simp [readExp, this.1, this.2]

theorem natToString_head_ne_minus (n : Nat) (rest : Str) :
    ∃ c cs, natToString n ++ rest = c :: cs ∧ c ≠ '-' ∧ isDigit c = true := by
  obtain ⟨c, cs, hcs, hd, -⟩ := natToString_head n
  refine ⟨c, cs ++ rest, by rw [hcs]; rfl, ?_, hd⟩
  intro h
  subst h
  exact absurd hd (by decide)

/-- Reading the decimal text of a number gives that text as the lexeme. -/
theorem readNumber_numberToString (n : Int) (rest : Str) (hrest : endsValue rest) :
    readNumber (numberToString n ++ rest) = some (numberToString n, rest) := by
  have hnd := endsValue_not_digit rest hrest
  have h1 : ∀ c ∈ rest.head?, isDigit c = false := fun c hc => (hnd c hc).1
  have h2 : ∀ c ∈ rest.head?, c ≠ '.' := fun c hc => (hnd c hc).2.1
  have h3 : ∀ c ∈ rest.head?, c ≠ 'e' ∧ c ≠ 'E' :=
    fun c hc => ⟨(hnd c hc).2.2.1, (hnd c hc).2.2.2⟩
  cases n with
  | ofNat m =>
    obtain ⟨c, cs, hcs, hc, -⟩ := natToString_head_ne_minus m rest
    have hi := readInt_natToString m rest h1
    simp only [numberToString, readNumber]
    rw [hcs] at hi ⊢
    simp only [hc, if_false, List.nil_append]
    rw [hi]
    simp only
    rw [readFrac_none rest h2]
    simp only
    rw [readExp_none rest h3]
    simp
  | negSucc m =>
    simp only [numberToString, readNumber, List.cons_append, if_true]
    rw [readInt_natToString (m + 1) rest h1]
    simp only
    rw [readFrac_none rest h2]
    simp only
    rw [readExp_none rest h3]
    simp

theorem parseValue_ws (fuel : Nat) (ws s : Str) (h : ∀ c ∈ ws, isWs c = true) :
    parseValue fuel (ws ++ s) = parseValue fuel s := by
  cases fuel with
  | zero => simp [parseValue]
  | succ f => rw [parseValue, parseValue, skipWs_spaces ws s h]

theorem parseElements_ws (fuel : Nat) (ws s : Str) (h : ∀ c ∈ ws, isWs c = true) :
    parseElements fuel (ws ++ s) = parseElements fuel s := by
  cases fuel with
  | zero => simp [parseElements]
  | succ f => rw [parseElements, parseElements, parseValue_ws f ws s h]

theorem parseMembers_ws (fuel : Nat) (ws s : Str) (h : ∀ c ∈ ws, isWs c = true) :
    parseMembers fuel (ws ++ s) = parseMembers fuel s := by
  cases fuel with
  | zero => simp [parseMembers]
  | succ f => rw [parseMembers, parseMembers, skipWs_spaces ws s h]

theorem isWs_of_space (ind : Str) (h : ∀ c ∈ ind, c = ' ') : ∀ c ∈ ind, isWs c = true := by
  intro c hc
  rw [h c hc]
  rfl

theorem isWs_newline_indent (ind : Str) (h : ∀ c ∈ ind, c = ' ') :
    ∀ c ∈ '\n' :: ind, isWs c = true := by
  intro c hc
  rcases List.mem_cons.1 hc with rfl | hc
  · rfl
  · exact isWs_of_space ind h c hc

theorem indent_gap (ind : Str) (h : ∀ c ∈ ind, c = ' ') : ∀ c ∈ ind ++ gap, c = ' ' := by
  intro c hc
  rcases List.mem_append.1 hc with h1 | h1
  · exact h c h1
  · simp [gap] at h1
    exact h1

theorem digit_ne (c d : Char) (hc : isDigit c = true) (hd : isDigit d = false) : c ≠ d := by
  rintro rfl
  rw [hc] at hd
  exact absurd hd (by decide)

theorem isWs_eq_false (c : Char) (h1 : c ≠ ' ') (h2 : c ≠ '\n') (h3 : c ≠ '\r')
    (h4 : c ≠ '\t') : isWs c = false := by
  simp [isWs, h1, h2, h3, h4]

theorem isWs_digit (c : Char) (hc : isDigit c = true) : isWs c = false :=
  isWs_eq_false c (digit_ne c _ hc (by decide)) (digit_ne c _ hc (by decide))
    (digit_ne c _ hc (by decide)) (digit_ne c _ hc (by decide))

/-- Reading a literal, a text or a number that opens the input. -/
theorem parseValue_null (fuel : Nat) (rest : Str) :
    parseValue (fuel + 1) ("null".toList ++ rest) = some (.null, rest) := by
  rw [parseValue]
  rfl

theorem parseValue_true (fuel : Nat) (rest : Str) :
    parseValue (fuel + 1) ("true".toList ++ rest) = some (.bool true, rest) := by
  rw [parseValue]
  rfl

theorem parseValue_false (fuel : Nat) (rest : Str) :
    parseValue (fuel + 1) ("false".toList ++ rest) = some (.bool false, rest) := by
  rw [parseValue]
  rfl

theorem parseValue_string (fuel : Nat) (s rest : Str) :
    parseValue (fuel + 1) (quoteJSONString s ++ rest) = some (.str s, rest) := by
  rw [parseValue]
  simp only [quoteJSONString, List.cons_append, List.append_assoc, List.singleton_append]
  rw [skipWs_of_not_ws _ _ (by decide)]
  simp only [if_true]
  rw [readString_quoteBody]
  rfl

theorem parseValue_number (fuel : Nat) (n : Int) (rest : Str) (hrest : endsValue rest) :
    parseValue (fuel + 1) (numberToString n ++ rest) = some (.num (numberToString n), rest) := by
  have hread := readNumber_numberToString n rest hrest
  have hhead : ∃ c cs, numberToString n ++ rest = c :: cs ∧ (c = '-' ∨ isDigit c = true) := by
    cases n with
    | ofNat m =>
      obtain ⟨c, cs, hcs, -, hd⟩ := natToString_head_ne_minus m rest
      exact ⟨c, cs, hcs, Or.inr hd⟩
    | negSucc m => exact ⟨'-', _, rfl, Or.inl rfl⟩
  obtain ⟨c, cs, hcs, hc⟩ := hhead
  rw [hcs] at hread ⊢
  have hne : ∀ d : Char, isDigit d = false → d ≠ '-' → c ≠ d := by
    intro d hd hm
    rcases hc with rfl | hdc
    · exact fun h => hm h.symm
    · exact digit_ne c d hdc hd
  have hws : isWs c = false :=
    isWs_eq_false c (hne _ (by decide) (by decide)) (hne _ (by decide) (by decide))
      (hne _ (by decide) (by decide)) (hne _ (by decide) (by decide))
  rw [parseValue, skipWs_of_not_ws c cs hws]
  simp only [hne '"' (by decide) (by decide), hne '[' (by decide) (by decide),
    hne '\x7b' (by decide) (by decide), hne 'n' (by decide) (by decide),
    hne 't' (by decide) (by decide), hne 'f' (by decide) (by decide), if_false]
  rw [hread]

theorem serializeJSON_arr_nil (env : Env) (ind : Str) :
    serializeJSON env ind (.arr []) = ['[', ']'] := by
  simp [serializeJSON, serializeItems]

theorem serializeJSON_arr_cons (env : Env) (ind : Str) (v : Tree) (vs : List Tree) :
    serializeJSON env ind (.arr (v :: vs))
      = '[' :: '\n' :: ((ind ++ gap) ++ (join (',' :: '\n' :: (ind ++ gap))
          (serializeItems env (ind ++ gap) (v :: vs)) ++ '\n' :: (ind ++ [']']))) := by
  simp [serializeJSON, serializeItems]

theorem serializeJSON_obj_nil (env : Env) (ind : Str) :
    serializeJSON env ind (.obj []) = ['\x7b', '\x7d'] := by
  simp [serializeJSON, serializeMembers]

theorem serializeJSON_obj_cons (env : Env) (ind : Str) (f : Str × Tree)
    (fs : List (Str × Tree)) :
    serializeJSON env ind (.obj (f :: fs))
      = '\x7b' :: '\n' :: ((ind ++ gap) ++ (join (',' :: '\n' :: (ind ++ gap))
          (serializeMembers env (ind ++ gap) (f :: fs)) ++ '\n' :: (ind ++ ['\x7d']))) := by
  obtain ⟨k, v⟩ := f
  simp [serializeJSON, serializeMembers]

/-- The text of a value starts with a character that is neither white space
nor a closing bracket. -/
theorem serializeJSON_head (env : Env) (ind : Str) (v : Tree) :
    ∃ c cs, serializeJSON env ind v = c :: cs ∧ isWs c = false ∧ c ≠ ']' := by
  cases v with
  | null => exact ⟨'n', _, rfl, by decide, by decide⟩
  | bool b => cases b <;> exact ⟨_, _, rfl, by decide, by decide⟩
  | num n =>
    cases n with
    | ofNat m =>
      obtain ⟨c, cs, hcs, hd, -⟩ := natToString_head m
      exact ⟨c, cs, by simp [serializeJSON, numberToString, hcs], isWs_digit c hd,
        digit_ne c _ hd (by decide)⟩
    | negSucc m => exact ⟨'-', _, rfl, by decide, by decide⟩
  | nan => exact ⟨'n', _, rfl, by decide, by decide⟩
  | infinity b => exact ⟨'n', _, rfl, by decide, by decide⟩
  | str s => exact ⟨'"', _, rfl, by decide, by decide⟩
  | date t => cases t <;> exact ⟨_, _, rfl, by decide, by decide⟩
  | arr items =>
    cases items with
    | nil => exact ⟨'[', _, serializeJSON_arr_nil env ind, by decide, by decide⟩
    | cons v vs => exact ⟨'[', _, serializeJSON_arr_cons env ind v vs, by decide, by decide⟩
  | obj fields =>
    cases fields with
    | nil => exact ⟨'\x7b', _, serializeJSON_obj_nil env ind, by decide, by decide⟩
    | cons f fs => exact ⟨'\x7b', _, serializeJSON_obj_cons env ind f fs, by decide, by decide⟩

theorem endsValue_comma (s : Str) : endsValue (',' :: s) := by
  intro c hc
  simp at hc
  exact Or.inl hc.symm

theorem endsValue_newline (s : Str) : endsValue ('\n' :: s) := by
  intro c hc
  simp at hc
  exact Or.inr hc.symm

theorem skipWs_newline_indent (ind s : Str) (h : ∀ c ∈ ind, c = ' ') :
    skipWs ('\n' :: (ind ++ s)) = skipWs s := by
  have := skipWs_spaces ('\n' :: ind) s (isWs_newline_indent ind h)
  simpa using this

/-- One step of reading the elements of an array: an element followed by a
comma and more elements. -/
theorem parseElements_more (fuel : Nat) (s more : Str) (v : Json) (vs : List Json)
    (out : Str) (h1 : parseValue fuel s = some (v, ',' :: more))
    (h2 : parseElements fuel more = some (vs, out)) :
    parseElements (fuel + 1) s = some (v :: vs, out) := by
  rw [parseElements, h1]
  simp only
  rw [skipWs_of_not_ws _ _ (by decide)]
  simp only [show (',' : Char) ≠ ']' by decide, if_false, if_true, h2]

/-- The last step of reading the elements of an array. -/
theorem parseElements_last (fuel : Nat) (s ind rest : Str) (v : Json)
    (hind : ∀ c ∈ ind, c = ' ')
    (h1 : parseValue fuel s = some (v, '\n' :: (ind ++ ']' :: rest))) :
    parseElements (fuel + 1) s = some ([v], rest) := by
  rw [parseElements, h1]
  simp only
  rw [skipWs_newline_indent ind _ hind, skipWs_of_not_ws _ _ (by decide)]
  simp

theorem parseMembers_key (fuel : Nat) (k tail : Str) :
    parseMembers (fuel + 1) (quoteJSONString k ++ (':' :: ' ' :: tail))
      = match parseValue fuel (' ' :: tail) with
        | none => none
        | some (v, rest3) =>
          match skipWs rest3 with
          | [] => none
          | c :: rest4 =>
            if c = '\x7d' then some ([(k, v)], rest4)
            else if c = ',' then
              match parseMembers fuel rest4 with
              | some (ms, r) => some ((k, v) :: ms, r)
              | none => none
            else none := by
  rw [parseMembers]
  simp only [quoteJSONString, List.cons_append, List.append_assoc, List.singleton_append]
  rw [skipWs_of_not_ws _ _ (by decide)]
  simp only [if_true]
  rw [readString_quoteBody]
  simp only [List.nil_append]
  rw [skipWs_of_not_ws _ _ (by decide)]
  simp only [if_true]

/-- One step of reading the members of an object: a member followed by a
comma and more members. -/
theorem parseMembers_more (fuel : Nat) (k tail more : Str) (v : Json)
    (ms : List (Str × Json)) (out : Str)
    (h1 : parseValue fuel (' ' :: tail) = some (v, ',' :: more))
    (h2 : parseMembers fuel more = some (ms, out)) :
    parseMembers (fuel + 1) (quoteJSONString k ++ (':' :: ' ' :: tail))
      = some ((k, v) :: ms, out) := by
  rw [parseMembers_key, h1]
  simp only
  rw [skipWs_of_not_ws _ _ (by decide)]
  simp only [show (',' : Char) ≠ '\x7d' by decide, if_false, if_true, h2]

/-- The last step of reading the members of an object. -/
theorem parseMembers_last (fuel : Nat) (k tail ind rest : Str) (v : Json)
    (hind : ∀ c ∈ ind, c = ' ')
    (h1 : parseValue fuel (' ' :: tail) = some (v, '\n' :: (ind ++ '\x7d' :: rest))) :
    parseMembers (fuel + 1) (quoteJSONString k ++ (':' :: ' ' :: tail))
      = some ([(k, v)], rest) := by
  rw [parseMembers_key, h1]
  simp only
  rw [skipWs_newline_indent ind _ hind, skipWs_of_not_ws _ _ (by decide)]
  simp

theorem parseValue_space (fuel : Nat) (s : Str) :
    parseValue fuel (' ' :: s) = parseValue fuel s :=
  parseValue_ws fuel [' '] s (by simp [isWs])

/-- Reading an array whose elements are read by `parseElements`. -/
theorem parseValue_array (fuel : Nat) (ind body rest : Str) (items : List Json)
    (hind : ∀ c ∈ ind, c = ' ')
    (hhead : ∃ c cs, body = c :: cs ∧ isWs c = false ∧ c ≠ ']')
    (h : parseElements fuel body = some (items, rest)) :
    parseValue (fuel + 1) ('[' :: '\n' :: (ind ++ body)) = some (.arr items, rest) := by
  obtain ⟨c, cs, rfl, hc, hne⟩ := hhead
  rw [parseValue, skipWs_of_not_ws _ _ (by decide)]
  simp only [show ('[' : Char) ≠ '"' by decide, if_false, if_true]
  rw [skipWs_newline_indent ind _ hind, skipWs_of_not_ws _ _ hc]
  simp only [hne, if_false, h]

/-- Reading an object whose members are read by `parseMembers`. -/
theorem parseValue_object (fuel : Nat) (ind body rest : Str) (members : List (Str × Json))
    (hind : ∀ c ∈ ind, c = ' ')
    (hhead : ∃ cs, body = '"' :: cs)
    (h : parseMembers fuel body = some (members, rest)) :
    parseValue (fuel + 1) ('\x7b' :: '\n' :: (ind ++ body)) = some (.obj members, rest) := by
  obtain ⟨cs, rfl⟩ := hhead
  rw [parseValue, skipWs_of_not_ws _ _ (by decide)]
  simp only [show ('\x7b' : Char) ≠ '"' by decide, show ('\x7b' : Char) ≠ '[' by decide,
    if_false, if_true]
  rw [skipWs_newline_indent ind _ hind, skipWs_of_not_ws _ _ (by decide)]
  simp only [show ('"' : Char) ≠ '\x7d' by decide, if_false, h]

theorem parseValue_empty_array (fuel : Nat) (rest : Str) :
    parseValue (fuel + 1) ('[' :: ']' :: rest) = some (.arr [], rest) := by
  rw [parseValue]
  rfl

theorem parseValue_empty_object (fuel : Nat) (rest : Str) :
    parseValue (fuel + 1) ('\x7b' :: '\x7d' :: rest) = some (.obj [], rest) := by
  rw [parseValue]
  rfl

theorem join_head (sep a tail : Str) (l : List Str) (c : Char) (cs : Str) (h : a = c :: cs) :
    ∃ cs2, join sep (a :: l) ++ tail = c :: cs2 := by
  cases l with
  | nil => exact ⟨cs ++ tail, by simp [join_singleton, h]⟩
  | cons b l => exact ⟨cs ++ (sep ++ join sep (b :: l)) ++ tail, by simp [join_cons_cons, h]⟩

mutual
/-- Reading the text `JSON.stringify` wrote for a value, followed by the rest
of a serialisation, gives the value read back and leaves that rest. -/
theorem parseValue_serializeJSON (env : Env) :
    ∀ (v : Tree) (ind rest : Str) (fuel : Nat), (∀ c ∈ ind, c = ' ') → endsValue rest →
      nodes v ≤ fuel →
      parseValue fuel (serializeJSON env ind v ++ rest) = some (readBack env v, rest)
  | .null, ind, rest, fuel, _, _, hf => by
    obtain ⟨f, rfl⟩ : ∃ f, fuel = f + 1 := ⟨fuel - 1, by simp [nodes] at hf; omega⟩
    exact parseValue_null f rest
  | .bool b, ind, rest, fuel, _, _, hf => by
    obtain ⟨f, rfl⟩ : ∃ f, fuel = f + 1 := ⟨fuel - 1, by simp [nodes] at hf; omega⟩
    cases b
    · exact parseValue_false f rest
    · exact parseValue_true f rest
  | .num n, ind, rest, fuel, _, hrest, hf => by
    obtain ⟨f, rfl⟩ : ∃ f, fuel = f + 1 := ⟨fuel - 1, by simp [nodes] at hf; omega⟩
    exact parseValue_number f n rest hrest
  | .nan, ind, rest, fuel, _, _, hf => by
    obtain ⟨f, rfl⟩ : ∃ f, fuel = f + 1 := ⟨fuel - 1, by simp [nodes] at hf; omega⟩
    exact parseValue_null f rest
  | .infinity _, ind, rest, fuel, _, _, hf => by
    obtain ⟨f, rfl⟩ : ∃ f, fuel = f + 1 := ⟨fuel - 1, by simp [nodes] at hf; omega⟩
    exact parseValue_null f rest
  | .str s, ind, rest, fuel, _, _, hf => by
    obtain ⟨f, rfl⟩ : ∃ f, fuel = f + 1 := ⟨fuel - 1, by simp [nodes] at hf; omega⟩
    exact parseValue_string f s rest
  | .date none, ind, rest, fuel, _, _, hf => by
    obtain ⟨f, rfl⟩ : ∃ f, fuel = f + 1 := ⟨fuel - 1, by simp [nodes] at hf; omega⟩
    exact parseValue_null f rest
  | .date (some t), ind, rest, fuel, _, _, hf => by
    obtain ⟨f, rfl⟩ : ∃ f, fuel = f + 1 := ⟨fuel - 1, by simp [nodes] at hf; omega⟩
    exact parseValue_string f _ rest
  | .arr [], ind, rest, fuel, _, _, hf => by
    obtain ⟨f, rfl⟩ : ∃ f, fuel = f + 1 := ⟨fuel - 1, by simp [nodes] at hf; omega⟩
    rw [serializeJSON_arr_nil]
    exact parseValue_empty_array f rest
  | .arr (v :: vs), ind, rest, fuel, hind, _, hf => by
    obtain ⟨f, rfl⟩ : ∃ f, fuel = f + 1 := ⟨fuel - 1, by simp [nodes] at hf; omega⟩
    have hf2 : nodesItems (v :: vs) ≤ f := by simp only [nodes] at hf; omega
    have hitems := parseElements_serializeItems env (v :: vs) (ind ++ gap) ind rest f
      (by simp) (indent_gap ind hind) hind hf2
    rw [serializeJSON_arr_cons]
    have hshape : ('[' :: '\n' :: ((ind ++ gap) ++ (join (',' :: '\n' :: (ind ++ gap))
          (serializeItems env (ind ++ gap) (v :: vs)) ++ '\n' :: (ind ++ [']'])))) ++ rest
        = '[' :: '\n' :: ((ind ++ gap) ++ (join (',' :: '\n' :: (ind ++ gap))
          (serializeItems env (ind ++ gap) (v :: vs)) ++ '\n' :: (ind ++ ']' :: rest))) := by
      simp
    rw [hshape]
    refine parseValue_array f (ind ++ gap) _ rest _ (indent_gap ind hind) ?_ hitems
    obtain ⟨c, cs, hcs, hc, hne⟩ := serializeJSON_head env (ind ++ gap) v
    obtain ⟨cs2, h2⟩ := join_head (',' :: '\n' :: (ind ++ gap)) _
      ('\n' :: (ind ++ ']' :: rest)) (serializeItems env (ind ++ gap) vs) c cs hcs
    exact ⟨c, cs2, h2, hc, hne⟩
  | .obj [], ind, rest, fuel, _, _, hf => by
    obtain ⟨f, rfl⟩ : ∃ f, fuel = f + 1 := ⟨fuel - 1, by simp [nodes] at hf; omega⟩
    rw [serializeJSON_obj_nil]
    exact parseValue_empty_object f rest
  | .obj (m :: ms), ind, rest, fuel, hind, _, hf => by
    obtain ⟨f, rfl⟩ : ∃ f, fuel = f + 1 := ⟨fuel - 1, by simp [nodes] at hf; omega⟩
    have hf2 : nodesMembers (m :: ms) ≤ f := by simp only [nodes] at hf; omega
    have hmembers := parseMembers_serializeMembers env (m :: ms) (ind ++ gap) ind rest f
      (by simp) (indent_gap ind hind) hind hf2
    rw [serializeJSON_obj_cons]
    have hshape : ('\x7b' :: '\n' :: ((ind ++ gap) ++ (join (',' :: '\n' :: (ind ++ gap))
          (serializeMembers env (ind ++ gap) (m :: ms)) ++ '\n' :: (ind ++ ['\x7d'])))) ++ rest
        = '\x7b' :: '\n' :: ((ind ++ gap) ++ (join (',' :: '\n' :: (ind ++ gap))
          (serializeMembers env (ind ++ gap) (m :: ms)) ++ '\n' :: (ind ++ '\x7d' :: rest))) := by
      simp
    rw [hshape]
    refine parseValue_object f (ind ++ gap) _ rest _ (indent_gap ind hind) ?_ hmembers
    obtain ⟨k, v⟩ := m
    exact join_head (',' :: '\n' :: (ind ++ gap)) _ ('\n' :: (ind ++ '\x7d' :: rest))
      (serializeMembers env (ind ++ gap) ms) '"' _ rfl
/-- Reading the joined texts of the elements of a non-empty array up to the
closing bracket gives the elements read back. -/
theorem parseElements_serializeItems (env : Env) :
    ∀ (items : List Tree) (ind ind0 rest : Str) (fuel : Nat), items ≠ [] →
      (∀ c ∈ ind, c = ' ') → (∀ c ∈ ind0, c = ' ') → nodesItems items ≤ fuel →
      parseElements fuel (join (',' :: '\n' :: ind) (serializeItems env ind items)
          ++ '\n' :: (ind0 ++ ']' :: rest))
        = some (readBackItems env items, rest)
  | [], _, _, _, _, hne, _, _, _ => absurd rfl hne
  | [v], ind, ind0, rest, fuel, _, hind, hind0, hf => by
    obtain ⟨f, rfl⟩ : ∃ f, fuel = f + 1 := ⟨fuel - 1, by simp [nodesItems] at hf; omega⟩
    have hv : nodes v ≤ f := by simp only [nodesItems] at hf; omega
    have := parseValue_serializeJSON env v ind ('\n' :: (ind0 ++ ']' :: rest)) f hind
      (endsValue_newline _) hv
    simp only [serializeItems, join_singleton, readBackItems]
    exact parseElements_last f _ ind0 rest _ hind0 this
  | v :: w :: ws, ind, ind0, rest, fuel, _, hind, hind0, hf => by
    obtain ⟨f, rfl⟩ : ∃ f, fuel = f + 1 := ⟨fuel - 1, by simp [nodesItems] at hf; omega⟩
    have hv : nodes v ≤ f := by simp only [nodesItems] at hf; omega
    have hrest : nodesItems (w :: ws) ≤ f := by simp only [nodesItems] at hf ⊢; omega
    have h1 := parseValue_serializeJSON env v ind
      (',' :: ('\n' :: ind ++ (join (',' :: '\n' :: ind) (serializeItems env ind (w :: ws))
        ++ '\n' :: (ind0 ++ ']' :: rest)))) f hind (endsValue_comma _) hv
    have h2 := parseElements_serializeItems env (w :: ws) ind ind0 rest f (by simp) hind hind0
      hrest
    rw [← parseElements_ws f ('\n' :: ind) _ (isWs_newline_indent ind hind)] at h2
    have hshape : join (',' :: '\n' :: ind) (serializeItems env ind (v :: w :: ws))
          ++ '\n' :: (ind0 ++ ']' :: rest)
        = serializeJSON env ind v ++ (',' :: ('\n' :: ind ++ (join (',' :: '\n' :: ind)
            (serializeItems env ind (w :: ws)) ++ '\n' :: (ind0 ++ ']' :: rest)))) := by
      simp only [serializeItems, join_cons_cons]
      simp
    rw [hshape]
    simp only [readBackItems]
    exact parseElements_more f _ _ _ _ rest h1 h2
/-- Reading the joined texts of the members of a non-empty object up to the
closing brace gives the members read back. -/
theorem parseMembers_serializeMembers (env : Env) :
    ∀ (fields : List (Str × Tree)) (ind ind0 rest : Str) (fuel : Nat), fields ≠ [] →
      (∀ c ∈ ind, c = ' ') → (∀ c ∈ ind0, c = ' ') → nodesMembers fields ≤ fuel →
      parseMembers fuel (join (',' :: '\n' :: ind) (serializeMembers env ind fields)
          ++ '\n' :: (ind0 ++ '\x7d' :: rest))
        = some (readBackMembers env fields, rest)
  | [], _, _, _, _, hne, _, _, _ => absurd rfl hne
  | [(k, v)], ind, ind0, rest, fuel, _, hind, hind0, hf => by
    obtain ⟨f, rfl⟩ : ∃ f, fuel = f + 1 := ⟨fuel - 1, by simp [nodesMembers] at hf; omega⟩
    have hv : nodes v ≤ f := by simp only [nodesMembers] at hf; omega
    have := parseValue_serializeJSON env v ind ('\n' :: (ind0 ++ '\x7d' :: rest)) f hind
      (endsValue_newline _) hv
    rw [← parseValue_space] at this
    simp only [serializeMembers, join_singleton, readBackMembers]
    have hshape : quoteJSONString k ++ ':' :: ' ' :: serializeJSON env ind v
          ++ '\n' :: (ind0 ++ '\x7d' :: rest)
        = quoteJSONString k ++ (':' :: ' ' :: (serializeJSON env ind v
          ++ '\n' :: (ind0 ++ '\x7d' :: rest))) := by
      simp
    rw [hshape]
    exact parseMembers_last f k _ ind0 rest _ hind0 this
  | (k, v) :: w :: ws, ind, ind0, rest, fuel, _, hind, hind0, hf => by
    obtain ⟨f, rfl⟩ : ∃ f, fuel = f + 1 := ⟨fuel - 1, by simp [nodesMembers] at hf; omega⟩
    have hv : nodes v ≤ f := by simp only [nodesMembers] at hf; omega
    have hrest : nodesMembers (w :: ws) ≤ f := by
      obtain ⟨k2, v2⟩ := w
      simp only [nodesMembers] at hf ⊢
      omega
    have h1 := parseValue_serializeJSON env v ind
      (',' :: ('\n' :: ind ++ (join (',' :: '\n' :: ind) (serializeMembers env ind (w :: ws))
        ++ '\n' :: (ind0 ++ '\x7d' :: rest)))) f hind (endsValue_comma _) hv
    rw [← parseValue_space] at h1
    have h2 := parseMembers_serializeMembers env (w :: ws) ind ind0 rest f (by simp) hind hind0
      hrest
    rw [← parseMembers_ws f ('\n' :: ind) _ (isWs_newline_indent ind hind)] at h2
    have hshape : join (',' :: '\n' :: ind) (serializeMembers env ind ((k, v) :: w :: ws))
          ++ '\n' :: (ind0 ++ '\x7d' :: rest)
        = quoteJSONString k ++ (':' :: ' ' :: (serializeJSON env ind v
          ++ (',' :: ('\n' :: ind ++ (join (',' :: '\n' :: ind)
            (serializeMembers env ind (w :: ws)) ++ '\n' :: (ind0 ++ '\x7d' :: rest)))))) := by
      obtain ⟨k2, v2⟩ := w
      simp only [serializeMembers, join_cons_cons]
      simp
    rw [hshape]
    simp only [readBackMembers]
    exact parseMembers_more f k _ _ _ _ rest h1 h2
end

theorem join_length_cons_cons (sep a b : Str) (l : List Str) :
    (join sep (a :: b :: l)).length = a.length + sep.length + (join sep (b :: l)).length := by
  rw [join_cons_cons]
  simp only [List.length_append]
  omega

mutual
/-- The text of a value is at least as long as the value has nodes. -/
theorem nodes_le_length (env : Env) :
    ∀ (v : Tree) (ind : Str), nodes v ≤ (serializeJSON env ind v).length
  | .null, _ => by simp [nodes, serializeJSON]
  | .bool b, _ => by cases b <;> simp [nodes, serializeJSON]
  | .num n, ind => by
    obtain ⟨c, cs, hcs, -, -⟩ := serializeJSON_head env ind (.num n)
    rw [hcs]
    simp [nodes]
  | .nan, _ => by simp [nodes, serializeJSON]
  | .infinity _, _ => by simp [nodes, serializeJSON]
  | .str s, _ => by simp [nodes, serializeJSON, quoteJSONString]
  | .date none, _ => by simp [nodes, serializeJSON]
  | .date (some t), _ => by simp [nodes, serializeJSON, quoteJSONString]
  | .arr [], _ => by rw [serializeJSON_arr_nil]; simp [nodes, nodesItems]
  | .arr (v :: vs), ind => by
    have := nodesItems_le_length env (v :: vs) (ind ++ gap)
    rw [serializeJSON_arr_cons]
    simp only [nodes, List.length_cons, List.length_append] at this ⊢
    omega
  | .obj [], _ => by rw [serializeJSON_obj_nil]; simp [nodes, nodesMembers]
  | .obj (m :: ms), ind => by
    have := nodesMembers_le_length env (m :: ms) (ind ++ gap)
    rw [serializeJSON_obj_cons]
    simp only [nodes, List.length_cons, List.length_append] at this ⊢
    omega
/-- The joined texts of elements are long enough for their nodes. -/
theorem nodesItems_le_length (env : Env) :
    ∀ (items : List Tree) (ind : Str),
      nodesItems items ≤ (join (',' :: '\n' :: ind) (serializeItems env ind items)).length + 1
  | [], _ => by simp [nodesItems]
  | [v], ind => by
    have := nodes_le_length env v ind
    simp only [nodesItems, serializeItems, join_singleton]
    omega
  | v :: w :: ws, ind => by
    have h1 := nodes_le_length env v ind
    have h2 := nodesItems_le_length env (w :: ws) ind
    simp only [serializeItems] at h2 ⊢
    rw [join_length_cons_cons]
    simp only [nodesItems, List.length_cons] at h2 ⊢
    omega
/-- The joined texts of members are long enough for their nodes. -/
theorem nodesMembers_le_length (env : Env) :
    ∀ (fields : List (Str × Tree)) (ind : Str),
      nodesMembers fields
        ≤ (join (',' :: '\n' :: ind) (serializeMembers env ind fields)).length + 1
  | [], _ => by simp [nodesMembers]
  | [(k, v)], ind => by
    have := nodes_le_length env v ind
    simp only [nodesMembers, serializeMembers, join_singleton, List.length_append,
      List.length_cons]
    omega
  | (k, v) :: (k2, v2) :: ws, ind => by
    have h1 := nodes_le_length env v ind
    have h2 := nodesMembers_le_length env ((k2, v2) :: ws) ind
    simp only [serializeMembers] at h2 ⊢
    rw [join_length_cons_cons]
    simp only [nodesMembers, List.length_cons, List.length_append] at h2 ⊢
    omega
end

/-- The text between the script tags of a block that `generateJSONLD` built. -/
theorem scriptBody_frame (json : Str) :
    scriptBody (scriptOpen ++ (json ++ scriptClose)) = some ('\n' :: (json ++ ['\n'])) := by
  have h1 : scriptOpen ++ (json ++ scriptClose)
      = openTag ++ (('\n' :: (json ++ ['\n'])) ++ closeTag) := by
    have ho : scriptOpen = openTag ++ ['\n'] := by decide
    have hc : scriptClose = '\n' :: closeTag := by decide
    rw [ho, hc]
    simp
  rw [h1]
  unfold scriptBody
  have hp : openTag.isPrefixOf (openTag ++ (('\n' :: (json ++ ['\n'])) ++ closeTag)) = true :=
    List.isPrefixOf_iff_prefix.2 (List.prefix_append _ _)
  have hd : (openTag ++ (('\n' :: (json ++ ['\n'])) ++ closeTag)).drop openTag.length
      = ('\n' :: (json ++ ['\n'])) ++ closeTag := List.drop_left _ _
  have hs : closeTag.isSuffixOf (('\n' :: (json ++ ['\n'])) ++ closeTag) = true :=
    List.isSuffixOf_iff_suffix.2 (List.suffix_append _ _)
  rw [hd, hp, hs]
  simp only [and_self, if_true, Option.some.injEq]
  have hl : (openTag ++ (('\n' :: (json ++ ['\n'])) ++ closeTag)).length - openTag.length
      - closeTag.length = ('\n' :: (json ++ ['\n'])).length := by
    simp only [List.length_append]
    omega
  rw [hl]
  exact List.take_left _ _

/-- Reading the text of a value between two line breaks gives the value read back. -/
theorem parseJSON_serializeJSON (env : Env) (v : Tree) :
    parseJSON ('\n' :: (serializeJSON env [] v ++ ['\n'])) = some (readBack env v) := by
  unfold parseJSON
  have hfuel : nodes v ≤ ('\n' :: (serializeJSON env [] v ++ ['\n'])).length + 1 := by
    have := nodes_le_length env v []
    simp only [List.length_cons, List.length_append]
    omega
  have h := parseValue_serializeJSON env v [] ['\n'] _ (by simp) (endsValue_newline _) hfuel
  have hws := parseValue_ws (('\n' :: (serializeJSON env [] v ++ ['\n'])).length + 1) ['\n']
    (serializeJSON env [] v ++ ['\n']) (by simp [isWs])
  rw [List.singleton_append] at hws
  rw [hws, h]
  rfl

/-- What a reader of a structured-data block that `generateJSONLD` returned
gets: the post has text title and author and a date without reference cycle,
and the block reads as the six members in the order of the source, the
headline and the author after the replacement of lines 83 and 84. -/
theorem generateJSONLD_readBack (env : Env) (post : Post) (block : Str)
    (h : generateJSONLD env post = .ok block) :
    ∃ t a d body, post.title = .tree (.str t) ∧ post.author = .tree (.str a)
      ∧ post.date = .tree d ∧ scriptBody block = some body
      ∧ parseJSON body = some (.obj [
          ("@context".toList, .str "https://schema.org".toList),
          ("@type".toList, .str "BlogPosting".toList),
          ("headline".toList, .str (replaceQuotes t)),
          ("author".toList, .str (replaceQuotes a)),
          ("datePublished".toList, readBack env d),
          ("keywords".toList, .str (join ",".toList post.tags))]) := by
  obtain ⟨t, a, d, ht, ha, hd⟩ := generateJSONLD_ok_inv env post block h
  rw [generateJSONLD_text env post t a d ht ha hd] at h
  simp only [Outcome.ok.injEq] at h
  subst h
  refine ⟨t, a, d, _, ht, ha, hd, scriptBody_frame _, ?_⟩
  rw [parseJSON_serializeJSON]
  rfl

/-- C5, at the failing input.  For the title `Say "hi"` the headline read
back from the structured-data block is `Say \"hi\"`, with a backslash before
each double quote, which is not the title. -/
theorem generateJSONLD_headline_quoted :
    ∃ block body parsed, generateJSONLD (sampleEnv []) postQuoted = .ok block
      ∧ scriptBody block = some body ∧ parseJSON body = some parsed
      ∧ parsed.member "headline".toList = some (.str "Say \\\"hi\\\"".toList)
      ∧ "Say \\\"hi\\\"".toList ≠ "Say \"hi\"".toList := by
  obtain ⟨block, hb⟩ : ∃ block, generateJSONLD (sampleEnv []) postQuoted = .ok block :=
    ⟨_, generateJSONLD_text (sampleEnv []) postQuoted _ _ _ rfl rfl rfl⟩
  obtain ⟨t, a, d, body, ht, ha, hd, h2, h3⟩ :=
    generateJSONLD_readBack (sampleEnv []) postQuoted block hb
  have ht2 : t = "Say \"hi\"".toList := by
    have : (Value.tree (.str "Say \"hi\"".toList)) = .tree (.str t) := ht
    injection this with h1
    injection h1 with h1
    exact h1.symm
  subst ht2
  exact ⟨block, body, _, hb, h2, h3, rfl, by decide⟩

/-- C6.  For every post whose title and author are text, `generateJSONLD`
returns a block whenever the date holds no reference cycle, and in every
block it returns the text between the script tags is valid JSON: it reads as
an object whose keys are `@context`, `@type`, `headline`, `author`,
`datePublished`, `keywords`, in this order. -/
theorem generateJSONLD_valid_json (env : Env) (post : Post) (t a : Str)
    (ht : post.title = .tree (.str t)) (ha : post.author = .tree (.str a)) :
    (∀ d, post.date = .tree d → ∃ block, generateJSONLD env post = .ok block)
      ∧ ∀ block, generateJSONLD env post = .ok block →
          ∃ body members, scriptBody block = some body
            ∧ parseJSON body = some (.obj members)
            ∧ (Json.obj members).keys = jsonldKeys := by
  refine ⟨fun d hd => ⟨_, generateJSONLD_text env post t a d ht ha hd⟩, ?_⟩
  intro block hb
  obtain ⟨_, _, _, body, -, -, -, h2, h3⟩ := generateJSONLD_readBack env post block hb
  exact ⟨body, _, h2, h3, rfl⟩

/-- Witness for C6: a title with double quotes. -/
theorem generateJSONLD_valid_json_witness :
    ∃ block body members, generateJSONLD (sampleEnv []) postQuoted = .ok block
      ∧ scriptBody block = some body ∧ parseJSON body = some (.obj members)
      ∧ (Json.obj members).keys = jsonldKeys := by
  have h := generateJSONLD_valid_json (sampleEnv []) postQuoted "Say \"hi\"".toList
    "Ann".toList rfl rfl
  obtain ⟨block, hb⟩ := h.1 _ rfl
  obtain ⟨body, members, h2, h3, h4⟩ := h.2 block hb
  exact ⟨block, body, members, hb, h2, h3, h4⟩

/-- C7.  For every post whose title and author are text, `generateJSONLD`
returns a block whenever the date holds no reference cycle, and in every
block it returns the keywords member read back is the post's tags joined by
a single comma; it is the empty text when there are no tags. -/
theorem generateJSONLD_keywords (env : Env) (post : Post) (t a : Str)
    (ht : post.title = .tree (.str t)) (ha : post.author = .tree (.str a)) :
    (∀ d, post.date = .tree d → ∃ block, generateJSONLD env post = .ok block)
      ∧ ∀ block, generateJSONLD env post = .ok block →
          ∃ body parsed, scriptBody block = some body ∧ parseJSON body = some parsed
            ∧ parsed.member "keywords".toList
                = some (.str (",".toList.intercalate post.tags))
            ∧ (post.tags = [] → parsed.member "keywords".toList = some (.str [])) := by
  refine ⟨fun d hd => ⟨_, generateJSONLD_text env post t a d ht ha hd⟩, ?_⟩
  intro block hb
  obtain ⟨_, _, _, body, -, -, -, h2, h3⟩ := generateJSONLD_readBack env post block hb
  refine ⟨body, _, h2, h3, rfl, ?_⟩
  intro h0
  rw [h0]
  rfl

/-- Witness for C7: the example scenario.  The tags `x`, `y` of Doc1 give the
keywords `x,y`, the empty tags of Doc2 give the empty keywords. -/
theorem generateJSONLD_keywords_witness :
    (∃ block body parsed, generateJSONLD (sampleEnv []) post1 = .ok block
      ∧ scriptBody block = some body ∧ parseJSON body = some parsed
      ∧ parsed.member "keywords".toList = some (.str "x,y".toList))
    ∧ (∃ block body parsed, generateJSONLD (sampleEnv []) post2 = .ok block
      ∧ scriptBody block = some body ∧ parseJSON body = some parsed
      ∧ parsed.member "keywords".toList = some (.str "".toList)) := by
  have h1 := generateJSONLD_keywords (sampleEnv []) post1 _ _ rfl rfl
  have h2 := generateJSONLD_keywords (sampleEnv []) post2 _ _ rfl rfl
  obtain ⟨b1, hb1⟩ := h1.1 _ rfl
  obtain ⟨b2, hb2⟩ := h2.1 _ rfl
  obtain ⟨y1, p1, f1, f2, f3, -⟩ := h1.2 b1 hb1
  obtain ⟨y2, p2, g1, g2, -, g4⟩ := h2.2 b2 hb2
  exact ⟨⟨b1, y1, p1, hb1, f1, f2, f3⟩, ⟨b2, y2, p2, hb2, g1, g2, g4 rfl⟩⟩

end Build
